import Mathlib

/-!
Verification of the b-plus-tree / path-oram repository core.

This file gives a shallow embedding, in Lean, of the two storage adapters
(src/b-plus-tree/src/storage-adapter.cpp), of the Path ORAM engine
(src/path-oram/src/oram.cpp), and of the B plus tree construction and
search (the tree implementation file is not part of src, so those
definitions are modelled from the specification, as marked), together
with theorems settling the frozen claims about them.

Conventions of the embedding: machine integers (the number type, ulong)
become Nat; byte vectors become lists of Nat; a C++ function that throws
becomes a function into Except String; the ULONG_MAX sentinel marking an
empty ORAM slot becomes the none case of an Option.
-/

set_option maxHeartbeats 1000000

/-- Byte sequences (the bytes type of the source, a vector of uchar). -/
abbrev Bytes : Type := List Nat

/-- Word size in bytes, sizeof of the number type (ulong, 8 bytes). -/
def wordSize : Nat := 8

/-- Sentinel address EMPTY of the storage adapters, modelled as the
largest 64 bit value, never returned by malloc. -/
def EMPTY : Nat := 2 ^ 64 - 1

/-- Little endian encoding of a number on wordSize bytes
(utility bytesFromNumber; the spec fixes one byte order per
implementation). -/
def bytesFromNumber (n : Nat) : Bytes :=
  (List.range wordSize).map (fun i => n / 256 ^ i % 256)

/-- Resize of a byte vector in the C++ sense: truncate or pad with zeros. -/
def resizeBytes (b : Bytes) (n : Nat) : Bytes :=
  b.take n ++ List.replicate (n - b.length) 0

/-- Success test for an Except value. -/
def exceptOk {E A : Type} : Except E A → Bool
  | .ok _ => true
  | .error _ => false

/-! ## In-memory storage adapter (InMemoryStorageAdapter) -/

/-- State of InMemoryStorageAdapter: the fixed block size, the malloc
counter, and the memory map from addresses to blocks.  The C++ memory is
an unordered map whose operator[] defaults to an empty byte vector; the
model makes it a total function defaulting to the empty list. -/
structure InMemoryState where
  blockSize : Nat
  locationCounter : Nat
  memory : Nat → Bytes

/-- Modelled from the spec: the META constant of the in-memory adapter
lives in storage-adapter.hpp, which is not under src.  The spec says META
is a distinct reserved address allocated at construction and that malloc
increments a counter, so the model reserves address 0 for META and starts
the counter at 1. -/
def imMETA : Nat := 0

/-- Constructor of InMemoryStorageAdapter: writes the meta block (the
EMPTY root pointer padded to blockSize) at address META; the counter
starts just above the reserved meta address. -/
def imInit (blockSize : Nat) : InMemoryState :=
  { blockSize := blockSize
    locationCounter := 1
    memory := fun l =>
      if l = imMETA then resizeBytes (bytesFromNumber EMPTY) blockSize else [] }

/-- InMemoryStorageAdapter get: checkLocation throws when the address is
at or above the malloc counter; otherwise the block is inserted at the
beginning of the response buffer. -/
def imGet (a : InMemoryState) (location : Nat) (response : Bytes) : Except String Bytes :=
  if a.locationCounter ≤ location then
    .error "attempt to access memory that was not malloced"
  else
    .ok (a.memory location ++ response)

/-- InMemoryStorageAdapter set: rejects a payload whose size differs from
blockSize, then checkLocation, then stores the block. -/
def imSet (a : InMemoryState) (location : Nat) (data : Bytes) : Except String InMemoryState :=
  if data.length ≠ a.blockSize then
    .error "data size does not match block size"
  else if a.locationCounter ≤ location then
    .error "attempt to access memory that was not malloced"
  else
    .ok { a with memory := fun l => if l = location then data else a.memory l }

/-- InMemoryStorageAdapter malloc: returns the counter and increments it. -/
def imMalloc (a : InMemoryState) : Nat × InMemoryState :=
  (a.locationCounter, { a with locationCounter := a.locationCounter + 1 })

/-- State after n calls to malloc. -/
def imMallocN (a : InMemoryState) : Nat → InMemoryState
  | 0 => a
  | n + 1 => (imMalloc (imMallocN a n)).2

/-- Address returned by malloc number k (counting from 0) after
construction with imInit. -/
def imNthMallocAddr (k : Nat) : Nat := k + 1

/-! ## File backed storage adapter (FileSystemStorageAdapter) -/

/-- State of FileSystemStorageAdapter: block size, the end cursor
locationCounter, and the file contents as a total map from byte offsets
to byte values (unwritten bytes read as 0). -/
structure FileState where
  blockSize : Nat
  locationCounter : Nat
  file : Nat → Nat

/-- Meta address of the file adapter: byte offset blockSize (the second
block of the file). -/
def fsMeta (a : FileState) : Nat := a.blockSize

/-- Pointwise update of a file map with a byte vector at an offset. -/
def writeBytesAt (f : Nat → Nat) (location : Nat) (data : Bytes) : Nat → Nat :=
  fun o => if location ≤ o ∧ o < location + data.length then data.getD (o - location) 0 else f o

/-- Read of n consecutive bytes at an offset. -/
def readBytesAt (f : Nat → Nat) (location n : Nat) : Bytes :=
  (List.range n).map (fun i => f (location + i))

/-- Constructor of FileSystemStorageAdapter with override (truncate) set:
a fresh zero file, the end cursor at two blocks, and the meta block (the
EMPTY root pointer padded to blockSize) written at offset blockSize. -/
def fsInit (blockSize : Nat) : FileState :=
  { blockSize := blockSize
    locationCounter := 2 * blockSize
    file := writeBytesAt (fun _ => 0) blockSize (resizeBytes (bytesFromNumber EMPTY) blockSize) }

/-- FileSystemStorageAdapter get: checkLocation throws when the offset
exceeds the end cursor or is not a multiple of blockSize; otherwise
blockSize bytes read at the offset are inserted at the beginning of the
response buffer. -/
def fsGet (a : FileState) (location : Nat) (response : Bytes) : Except String Bytes :=
  if a.locationCounter < location ∨ location % a.blockSize ≠ 0 then
    .error "attempt to access memory that was not malloced"
  else
    .ok (readBytesAt a.file location a.blockSize ++ response)

/-- FileSystemStorageAdapter set: rejects a payload whose size differs
from blockSize, then checkLocation, then writes the bytes at the offset. -/
def fsSet (a : FileState) (location : Nat) (data : Bytes) : Except String FileState :=
  if data.length ≠ a.blockSize then
    .error "data size does not match block size"
  else if a.locationCounter < location ∨ location % a.blockSize ≠ 0 then
    .error "attempt to access memory that was not malloced"
  else
    .ok { a with file := writeBytesAt a.file location data }

/-- FileSystemStorageAdapter malloc: the source increments the end cursor
by blockSize and returns the incremented value (return locationCounter
plus equals blockSize returns the new, not the previous, cursor). -/
def fsMalloc (a : FileState) : Nat × FileState :=
  (a.locationCounter + a.blockSize, { a with locationCounter := a.locationCounter + a.blockSize })

/-- State after n calls to malloc. -/
def fsMallocN (a : FileState) : Nat → FileState
  | 0 => a
  | n + 1 => (fsMalloc (fsMallocN a n)).2

/-- Address returned by malloc number k (counting from 0) on a file
adapter state. -/
def fsNthMallocAddr (a : FileState) (k : Nat) : Nat := (fsMalloc (fsMallocN a k)).1

/-! ## Basic lemmas about the adapters -/

theorem imMallocN_counter (a : InMemoryState) (n : Nat) :
    (imMallocN a n).locationCounter = a.locationCounter + n := by
  induction n with
  | zero => rfl
  | succ n ih => simp [imMallocN, imMalloc, ih]; omega

theorem imMallocN_blockSize (a : InMemoryState) (n : Nat) :
    (imMallocN a n).blockSize = a.blockSize := by
  induction n with
  | zero => rfl
  | succ n ih => simp [imMallocN, imMalloc, ih]

theorem fsMallocN_blockSize (a : FileState) (n : Nat) :
    (fsMallocN a n).blockSize = a.blockSize := by
  induction n with
  | zero => rfl
  | succ n ih => simp [fsMallocN, fsMalloc, ih]

theorem fsMallocN_counter (a : FileState) (n : Nat) :
    (fsMallocN a n).locationCounter = a.locationCounter + n * a.blockSize := by
  induction n with
  | zero => simp [fsMallocN]
  | succ n ih =>
    simp only [fsMallocN, fsMalloc, ih, fsMallocN_blockSize]
    ring

theorem readBytesAt_writeBytesAt (f : Nat → Nat) (location : Nat) (data : Bytes) :
    readBytesAt (writeBytesAt f location data) location data.length = data := by
  apply List.ext_getElem
  · simp [readBytesAt]
  · intro i h1 h2
    simp only [readBytesAt, List.getElem_map, List.getElem_range, writeBytesAt]
    rw [if_pos]
    · rw [Nat.add_sub_cancel_left, List.getD_eq_getElem]
    · constructor <;> omega

/-! ## Claim theorems for the storage adapters -/

/-- C5 counterexample: the first malloc after file construction with
truncate returns 3 times blockSize (the cursor after the call), not
2 times blockSize (the cursor before the call) as the claim states;
shown at blockSize 32. -/
theorem fsMalloc_first_not_prev_end :
    (fsMalloc (fsInit 32)).1 = 96 ∧ (fsMalloc (fsInit 32)).1 ≠ 2 * 32 := by
  constructor
  · rfl
  · decide

/-- C5 amended: file backed malloc advances the end cursor by blockSize
and returns the cursor as it is after the call; the first malloc after
construction with truncate therefore returns 3 times blockSize, and for a
positive block size the addresses returned across any sequence of calls
are strictly increasing. -/
theorem fsMalloc_returns_new_end (a : FileState) (B : Nat) (hB : 1 ≤ a.blockSize) :
    (fsMalloc a).1 = a.locationCounter + a.blockSize ∧
    (fsMalloc a).2.locationCounter = a.locationCounter + a.blockSize ∧
    (fsMalloc (fsInit B)).1 = 3 * B ∧
    (∀ n m : Nat, n < m → fsNthMallocAddr a n < fsNthMallocAddr a m) := by
  refine ⟨rfl, rfl, ?_, ?_⟩
  · show 2 * B + B = 3 * B
    ring
  · intro n m hnm
    simp only [fsNthMallocAddr, fsMalloc, fsMallocN_counter, fsMallocN_blockSize]
    have : n * a.blockSize < m * a.blockSize :=
      Nat.mul_lt_mul_of_lt_of_le hnm (le_refl _) hB
    omega

theorem fsMalloc_returns_new_end_witness :
    1 ≤ (fsInit 32).blockSize ∧
    ((fsMalloc (fsInit 32)).1 = (fsInit 32).locationCounter + (fsInit 32).blockSize ∧
     (fsMalloc (fsInit 32)).2.locationCounter = (fsInit 32).locationCounter + (fsInit 32).blockSize ∧
     (fsMalloc (fsInit 32)).1 = 3 * 32 ∧
     (∀ n m : Nat, n < m → fsNthMallocAddr (fsInit 32) n < fsNthMallocAddr (fsInit 32) m)) :=
  ⟨by decide, fsMalloc_returns_new_end (fsInit 32) 32 (by decide)⟩

/-- C6 counterexample: on the file backed adapter right after
construction with truncate and blockSize 32, address 0 was never returned
by malloc (none was called) and is not the meta address, yet get at 0
succeeds, returning the 32 zero bytes of the reserved first block. -/
theorem fsGet_unallocated_succeeds :
    fsGet (fsInit 32) 0 [] = .ok (List.replicate 32 0) ∧ (0 : Nat) ≠ fsMeta (fsInit 32) := by
  constructor
  · unfold fsGet
    rw [if_neg (by decide)]
    simp only [Except.ok.injEq, List.append_nil]
    decide
  · decide

/-- C6 amended: the in-memory adapter accepts exactly the meta address
and the addresses returned by prior mallocs, and rejects every other
address, for get and set alike; the file backed adapter rejects exactly
the unaligned addresses and those beyond the end cursor, so the reserved
first block at offset 0 and any aligned not yet malloced offset up to the
cursor are accepted. -/
theorem storage_unallocated_access (B n a : Nat) (fs : FileState) (b : Nat)
    (out data1 : Bytes) (data2 : Bytes)
    (hlen1 : data1.length = B) (hlen2 : data2.length = fs.blockSize) :
    (exceptOk (imGet (imMallocN (imInit B) n) a out) = true ↔
      a = imMETA ∨ ∃ k, k < n ∧ a = imNthMallocAddr k) ∧
    (exceptOk (imSet (imMallocN (imInit B) n) a data1) = true ↔
      a = imMETA ∨ ∃ k, k < n ∧ a = imNthMallocAddr k) ∧
    (exceptOk (fsGet fs b out) = true ↔
      b ≤ fs.locationCounter ∧ b % fs.blockSize = 0) ∧
    (exceptOk (fsSet fs b data2) = true ↔
      b ≤ fs.locationCounter ∧ b % fs.blockSize = 0) := by
  have hcnt : (imMallocN (imInit B) n).locationCounter = 1 + n := by
    rw [imMallocN_counter]; rfl
  have hiff : a < 1 + n ↔ a = imMETA ∨ ∃ k, k < n ∧ a = imNthMallocAddr k := by
    constructor
    · intro h
      rcases Nat.eq_zero_or_pos a with h0 | h0
      · exact Or.inl h0
      · exact Or.inr ⟨a - 1, by omega, by simp [imNthMallocAddr]; omega⟩
    · rintro (h | ⟨k, hk, rfl⟩)
      · simp [imMETA] at h; omega
      · simp [imNthMallocAddr]; omega
  refine ⟨?_, ?_, ?_, ?_⟩
  · rw [← hiff]
    unfold imGet
    split
    · simp [exceptOk]; omega
    · simp [exceptOk]; omega
  · rw [← hiff]
    unfold imSet
    rw [if_neg (by rw [imMallocN_blockSize]; simp [imInit, hlen1])]
    split
    · simp [exceptOk]; omega
    · simp [exceptOk]; omega
  · unfold fsGet
    split
    · rename_i h
      simp [exceptOk]; omega
    · rename_i h
      push_neg at h
      simp [exceptOk]; omega
  · unfold fsSet
    rw [if_neg (by simp [hlen2])]
    split
    · rename_i h
      simp [exceptOk]; omega
    · rename_i h
      push_neg at h
      simp [exceptOk]; omega

theorem storage_unallocated_access_witness :
    (List.replicate 4 0 : Bytes).length = 4 ∧
    (List.replicate 32 1 : Bytes).length = (fsInit 32).blockSize ∧
    ((exceptOk (imGet (imMallocN (imInit 4) 2) 7 []) = true ↔
       7 = imMETA ∨ ∃ k, k < 2 ∧ 7 = imNthMallocAddr k) ∧
     (exceptOk (imSet (imMallocN (imInit 4) 2) 7 (List.replicate 4 0)) = true ↔
       7 = imMETA ∨ ∃ k, k < 2 ∧ 7 = imNthMallocAddr k) ∧
     (exceptOk (fsGet (fsInit 32) 64 []) = true ↔
       64 ≤ (fsInit 32).locationCounter ∧ 64 % (fsInit 32).blockSize = 0) ∧
     (exceptOk (fsSet (fsInit 32) 64 (List.replicate 32 1)) = true ↔
       64 ≤ (fsInit 32).locationCounter ∧ 64 % (fsInit 32).blockSize = 0)) :=
  ⟨by decide, by decide,
   storage_unallocated_access 4 2 7 (fsInit 32) 64 [] (List.replicate 4 0)
     (List.replicate 32 1) (by decide) (by decide)⟩

/-- C8: storage round trip for both adapters: at any address the adapter
accepts (for the in-memory adapter, any address below the malloc counter;
for the file backed one, any aligned address at or below the end cursor)
and for any payload of exactly blockSize bytes, set followed by get into
an empty buffer returns the payload. -/
theorem storage_roundtrip (im : InMemoryState) (fs : FileState) (aIm aFs : Nat)
    (dIm dFs : Bytes)
    (hIm : aIm < im.locationCounter) (hlenIm : dIm.length = im.blockSize)
    (hFs : aFs ≤ fs.locationCounter) (halign : aFs % fs.blockSize = 0)
    (hlenFs : dFs.length = fs.blockSize) :
    ∃ im2 fs2, imSet im aIm dIm = .ok im2 ∧ imGet im2 aIm [] = .ok dIm ∧
      fsSet fs aFs dFs = .ok fs2 ∧ fsGet fs2 aFs [] = .ok dFs := by
  have h1 : imSet im aIm dIm =
      .ok { im with memory := fun l => if l = aIm then dIm else im.memory l } := by
    unfold imSet
    rw [if_neg (by omega), if_neg (by omega)]
  have h2 : fsSet fs aFs dFs = .ok { fs with file := writeBytesAt fs.file aFs dFs } := by
    unfold fsSet
    rw [if_neg (by omega), if_neg (by push_neg; exact ⟨by omega, halign⟩)]
  refine ⟨_, _, h1, ?_, h2, ?_⟩
  · unfold imGet
    rw [if_neg (by simp; omega)]
    simp
  · unfold fsGet
    rw [if_neg (by push_neg; exact ⟨by simp; omega, by simp [halign]⟩)]
    simp only [Except.ok.injEq, List.append_nil]
    show readBytesAt (writeBytesAt fs.file aFs dFs) aFs fs.blockSize = dFs
    rw [← hlenFs, readBytesAt_writeBytesAt]

theorem storage_roundtrip_witness :
    (1 : Nat) < (imMallocN (imInit 4) 1).locationCounter ∧
    (List.replicate 4 7 : Bytes).length = (imMallocN (imInit 4) 1).blockSize ∧
    (96 : Nat) ≤ (fsMallocN (fsInit 32) 1).locationCounter ∧
    (96 : Nat) % (fsMallocN (fsInit 32) 1).blockSize = 0 ∧
    (List.replicate 32 9 : Bytes).length = (fsMallocN (fsInit 32) 1).blockSize ∧
    (∃ im2 fs2, imSet (imMallocN (imInit 4) 1) 1 (List.replicate 4 7) = .ok im2 ∧
      imGet im2 1 [] = .ok (List.replicate 4 7) ∧
      fsSet (fsMallocN (fsInit 32) 1) 96 (List.replicate 32 9) = .ok fs2 ∧
      fsGet fs2 96 [] = .ok (List.replicate 32 9)) :=
  ⟨by decide, by decide, by decide, by decide, by decide,
   storage_roundtrip (imMallocN (imInit 4) 1) (fsMallocN (fsInit 32) 1) 1 96
     (List.replicate 4 7) (List.replicate 32 9)
     (by decide) (by decide) (by decide) (by decide) (by decide)⟩

/-- C10: for both adapters, get inserts the stored block at the beginning
of the response buffer and keeps the previous contents after it, so
calling get into a non empty buffer yields the block followed by the
previous contents; after set of a payload of blockSize bytes, get into
any buffer out returns the payload appended with out. -/
theorem storage_get_prepends (im : InMemoryState) (fs : FileState) (aIm aFs : Nat)
    (dIm dFs : Bytes)
    (hIm : aIm < im.locationCounter) (hlenIm : dIm.length = im.blockSize)
    (hFs : aFs ≤ fs.locationCounter) (halign : aFs % fs.blockSize = 0)
    (hlenFs : dFs.length = fs.blockSize) :
    ∃ im2 fs2, imSet im aIm dIm = .ok im2 ∧ fsSet fs aFs dFs = .ok fs2 ∧
      (∀ out : Bytes, imGet im2 aIm out = .ok (dIm ++ out)) ∧
      (∀ out : Bytes, fsGet fs2 aFs out = .ok (dFs ++ out)) := by
  have h1 : imSet im aIm dIm =
      .ok { im with memory := fun l => if l = aIm then dIm else im.memory l } := by
    unfold imSet
    rw [if_neg (by omega), if_neg (by omega)]
  have h2 : fsSet fs aFs dFs = .ok { fs with file := writeBytesAt fs.file aFs dFs } := by
    unfold fsSet
    rw [if_neg (by omega), if_neg (by push_neg; exact ⟨by omega, halign⟩)]
  refine ⟨_, _, h1, h2, ?_, ?_⟩
  · intro out
    unfold imGet
    rw [if_neg (by simp; omega)]
    simp
  · intro out
    unfold fsGet
    rw [if_neg (by push_neg; exact ⟨by simp; omega, by simp [halign]⟩)]
    simp only [Except.ok.injEq]
    show readBytesAt (writeBytesAt fs.file aFs dFs) aFs fs.blockSize ++ out = dFs ++ out
    rw [← hlenFs, readBytesAt_writeBytesAt]

theorem storage_get_prepends_witness :
    (1 : Nat) < (imMallocN (imInit 4) 1).locationCounter ∧
    (List.replicate 4 7 : Bytes).length = (imMallocN (imInit 4) 1).blockSize ∧
    (96 : Nat) ≤ (fsMallocN (fsInit 32) 1).locationCounter ∧
    (96 : Nat) % (fsMallocN (fsInit 32) 1).blockSize = 0 ∧
    (List.replicate 32 9 : Bytes).length = (fsMallocN (fsInit 32) 1).blockSize ∧
    (∃ im2 fs2, imSet (imMallocN (imInit 4) 1) 1 (List.replicate 4 7) = .ok im2 ∧
      fsSet (fsMallocN (fsInit 32) 1) 96 (List.replicate 32 9) = .ok fs2 ∧
      (∀ out : Bytes, imGet im2 1 out = .ok (List.replicate 4 7 ++ out)) ∧
      (∀ out : Bytes, fsGet fs2 96 out = .ok (List.replicate 32 9 ++ out))) :=
  ⟨by decide, by decide, by decide, by decide, by decide,
   storage_get_prepends (imMallocN (imInit 4) 1) (fsMallocN (fsInit 32) 1) 1 96
     (List.replicate 4 7) (List.replicate 32 9)
     (by decide) (by decide) (by decide) (by decide) (by decide)⟩

/-! ## Path ORAM engine (oram.cpp)

The engine is parametric in a storage adapter holding (id, payload)
pairs, a position map and a stash; those adapters are declared outside
src, so, following the spec, the storage becomes a total map from slot
addresses to Option (id, payload) (none is the ULONG_MAX empty slot),
the position map a total function, and the stash an insertion ordered
association list without duplicate keys (add and update insert or
overwrite, getAll returns the entries).  Random draws (the remapped
leaves) are passed in as explicit arguments; random dummy payloads only
ever fill empty slots and are represented by none. -/

structure OramCfg where
  height : Nat
  Z : Nat

/-- Number of buckets, 2 to the height. -/
def numBuckets (c : OramCfg) : Nat := 2 ^ c.height

/-- Number of physical slots (called blocks in the constructor). -/
def numBlocks (c : OramCfg) : Nat := numBuckets c * c.Z

/-- Number of leaves, 2 to the height minus one. -/
def numLeaves (c : OramCfg) : Nat := 2 ^ (c.height - 1)

/-- Bucket index of the bucket met at a given level on the path of a
given leaf (ORAM bucketForLevelLeaf). -/
def bucketForLevelLeaf (c : OramCfg) (level leaf : Nat) : Nat :=
  (leaf + 2 ^ (c.height - 1)) >>> (c.height - 1 - level)

/-- Inclusion test of ORAM canInclude. -/
def canInclude (c : OramCfg) (pathLeaf blockPosition level : Nat) : Bool :=
  bucketForLevelLeaf c level pathLeaf == bucketForLevelLeaf c level blockPosition

/-- Lookup of the stash entry of a given id. -/
def stashGet (st : List (Nat × Bytes)) (b : Nat) : Option Bytes :=
  match st with
  | [] => none
  | (k, v) :: rest => if k = b then some v else stashGet rest b

/-- Insert or overwrite of a stash entry (stash add and update). -/
def stashAdd (st : List (Nat × Bytes)) (b : Nat) (v : Bytes) : List (Nat × Bytes) :=
  match st with
  | [] => [(b, v)]
  | (k, w) :: rest => if k = b then (b, v) :: rest else (k, w) :: stashAdd rest b v

/-- Removal of the stash entry of a given id (stash remove, map erase). -/
def stashEraseKey (st : List (Nat × Bytes)) (k : Nat) : List (Nat × Bytes) :=
  st.filter (fun e => e.1 != k)

/-- State of the ORAM engine: the physical slots, the position map and
the stash. -/
structure OramState where
  storage : Nat → Option (Nat × Bytes)
  posMap : Nat → Nat
  stash : List (Nat × Bytes)

/-- Slot addresses visited by readPath and rewritten by writePath for a
leaf: for every level and every slot index below Z, the slot at address
bucket times Z plus index, in the loop order of readPath. -/
def pathAddrs (c : OramCfg) (leaf : Nat) : List Nat :=
  (List.range c.height).flatMap
    (fun level => (List.range c.Z).map (fun i => bucketForLevelLeaf c level leaf * c.Z + i))

/-- Fold of readPath over a list of slot addresses: every occupied slot
is added to the stash. -/
def readFold (storage : Nat → Option (Nat × Bytes)) (addrs : List Nat)
    (st : List (Nat × Bytes)) : List (Nat × Bytes) :=
  addrs.foldl
    (fun st a =>
      match storage a with
      | some (id, d) => stashAdd st id d
      | none => st) st

/-- Selection loop of writePath at one level: traverse the working stash
snapshot in order, push every entry whose mapped leaf shares the bucket
of the path leaf at this level, and break once Z entries are selected
(the source pushes first and then compares the size with Z). -/
def selectLoop (p : Nat × Bytes → Bool) (Z : Nat) :
    List (Nat × Bytes) → Nat → List (Nat × Bytes)
  | [], _ => []
  | e :: rest, size =>
    if p e then
      if size + 1 = Z then [e] else e :: selectLoop p Z rest (size + 1)
    else selectLoop p Z rest size

/-- Bucket write of writePath: the source loops i from 0 to Z minus one
over the slots of the bucket, popping entries from the back of the
selected list while it is not empty and filling every remaining slot
with a dummy random block (an empty slot); slot base plus i therefore
receives entry number i of the reversed selected list when it exists and
none otherwise. -/
def writeBucket (stor : Nat → Option (Nat × Bytes)) (base Z : Nat)
    (ins : List (Nat × Bytes)) : Nat → Option (Nat × Bytes) :=
  fun a => if base ≤ a ∧ a < base + Z then (ins.reverse.map some).getD (a - base) none else stor a

/-- Accumulator of the level loop of writePath: the storage being
written, the working snapshot of the stash, and the accumulated list of
selected ids to delete from the live stash at the end. -/
structure WriteAcc where
  stor : Nat → Option (Nat × Bytes)
  cur : List (Nat × Bytes)
  dels : List Nat

/-- Body of the level loop of writePath: select up to Z entries of the
working snapshot whose mapped leaf can live in the bucket of this level,
erase them from the snapshot, record them for deletion, and write the
bucket. -/
def writeLevel (c : OramCfg) (posMap : Nat → Nat) (leaf : Nat) (acc : WriteAcc)
    (level : Nat) : WriteAcc :=
  let ins := selectLoop (fun e => canInclude c (posMap e.1) leaf level) c.Z acc.cur 0
  { stor := writeBucket acc.stor (bucketForLevelLeaf c level leaf * c.Z) c.Z ins
    cur := (ins.map Prod.fst).foldl stashEraseKey acc.cur
    dels := acc.dels ++ ins.map Prod.fst }

/-- Levels in the order of the writePath loop, from height minus one
down to 0. -/
def levelsDesc (c : OramCfg) : List Nat := (List.range c.height).reverse

/-- writePath: run the level loop on a snapshot of the stash, then
remove every selected id from the live stash; returns the new storage
and the new stash. -/
def writePathRun (c : OramCfg) (posMap : Nat → Nat) (leaf : Nat)
    (stor : Nat → Option (Nat × Bytes)) (stash : List (Nat × Bytes)) :
    (Nat → Option (Nat × Bytes)) × List (Nat × Bytes) :=
  let r := (levelsDesc c).foldl (fun acc level => writeLevel c posMap leaf acc level)
    ⟨stor, stash, []⟩
  (r.stor, r.dels.foldl stashEraseKey stash)

/-- ORAM access: remap the id to the given fresh leaf, read the path of
the previous leaf into the stash, update the stash on a write, fetch the
requested id from the stash (none models the failing stash get and the
thrown exception), then write the path back. -/
def access (c : OramCfg) (s : OramState) (read : Bool) (block : Nat) (data : Bytes)
    (newLeaf : Nat) : Option (Bytes × OramState) :=
  let previousPosition := s.posMap block
  let posMap2 := fun x => if x = block then newLeaf else s.posMap x
  let stash1 := readFold s.storage (pathAddrs c previousPosition) s.stash
  let stash2 := if read then stash1 else stashAdd stash1 block data
  match stashGet stash2 block with
  | none => none
  | some returned =>
    let w := writePathRun c posMap2 previousPosition s.storage stash2
    some (returned, { storage := w.1, posMap := posMap2, stash := w.2 })

/-- ORAM get: a read access with empty payload. -/
def oramGet (c : OramCfg) (s : OramState) (block newLeaf : Nat) : Option (Bytes × OramState) :=
  access c s true block [] newLeaf

/-- ORAM put: a write access; only the resulting state is kept. -/
def oramPut (c : OramCfg) (s : OramState) (block : Nat) (data : Bytes)
    (newLeaf : Nat) : Option OramState :=
  (access c s false block data newLeaf).map Prod.snd

/-- ORAM constructor: every slot is filled with an empty block (id
ULONG_MAX and a random payload, modelled by none), the stash is empty,
and the position map is the given assignment of random leaves. -/
def oramInit (c : OramCfg) (f : Nat → Nat) : OramState :=
  { storage := fun _ => none, posMap := f, stash := [] }

/-- Message of the consistency check exception. -/
def consistencyMsg : String := "block is mapped to a leaf, but was not found in the path"

/-- Loop of ORAM checkConsistency over the physical slot addresses: an
empty slot (id ULONG_MAX) is skipped; at the first occupied slot the
source clears the stash, reads the path of the leaf the position map
assigns to the slot counter, scans the stash for it (the scan only
breaks out of the scan loop) and then throws unconditionally, so the
model errors there; the stash mutations die with the exception. -/
def checkConsistencyGo (c : OramCfg) (s : OramState) : List Nat → Except String Unit
  | [] => .ok ()
  | bAddr :: rest =>
    match s.storage bAddr with
    | none => checkConsistencyGo c s rest
    | some _ => .error consistencyMsg

/-- ORAM checkConsistency over all physical slots. -/
def checkConsistency (c : OramCfg) (s : OramState) : Except String Unit :=
  checkConsistencyGo c s (List.range (numBlocks c))

/-- Predicate: slot address a lies on the path from the root to the
given leaf. -/
def onPath (c : OramCfg) (leaf a : Nat) : Prop :=
  ∃ level, level < c.height ∧ ∃ i, i < c.Z ∧ a = bucketForLevelLeaf c level leaf * c.Z + i

/-- One logical operation on the ORAM: get (read true, data ignored) or
put, together with the fresh random leaf drawn by the access. -/
structure Op where
  read : Bool
  id : Nat
  data : Bytes
  leaf : Nat

/-- Run of a list of operations, failing when any access fails. -/
def runOps (c : OramCfg) : List Op → OramState → Option OramState
  | [], s => some s
  | op :: ops, s =>
    match access c s op.read op.id op.data op.leaf with
    | none => none
    | some (_, s2) => runOps c ops s2

/-! ## Bucket geometry -/

theorem bucketForLevelLeaf_range (c : OramCfg) (leaf l : Nat)
    (hleaf : leaf < 2 ^ (c.height - 1)) (hl : l < c.height) :
    2 ^ l ≤ bucketForLevelLeaf c l leaf ∧ bucketForLevelLeaf c l leaf < 2 ^ (l + 1) := by
  unfold bucketForLevelLeaf
  rw [Nat.shiftRight_eq_div_pow]
  have hsplit : l + (c.height - 1 - l) = c.height - 1 := by omega
  have hsplit2 : (l + 1) + (c.height - 1 - l) = c.height := by omega
  constructor
  · rw [Nat.le_div_iff_mul_le (Nat.pos_pow_of_pos _ (by omega))]
    calc 2 ^ l * 2 ^ (c.height - 1 - l) = 2 ^ (c.height - 1) := by
          rw [← pow_add, hsplit]
      _ ≤ leaf + 2 ^ (c.height - 1) := by omega
  · rw [Nat.div_lt_iff_lt_mul (Nat.pos_pow_of_pos _ (by omega))]
    calc leaf + 2 ^ (c.height - 1) < 2 ^ (c.height - 1) + 2 ^ (c.height - 1) := by omega
      _ = 2 ^ c.height := by
          rw [← two_mul, ← pow_succ']
          congr 1
          omega
      _ = 2 ^ (l + 1) * 2 ^ (c.height - 1 - l) := by rw [← pow_add, hsplit2]

/-- C7: for every height at least 1, every leaf below 2 to the height
minus one and every level below the height, bucketForLevelLeaf computes
the shifted sum of the claim; at the last level it is leaf plus 2 to the
height minus one, and at level 0 it is the root bucket 1. -/
theorem bucket_geometry (c : OramCfg) (leaf l : Nat) (hH : 1 ≤ c.height)
    (hleaf : leaf < 2 ^ (c.height - 1)) (hl : l < c.height) :
    bucketForLevelLeaf c l leaf = (leaf + 2 ^ (c.height - 1)) >>> (c.height - 1 - l) ∧
    bucketForLevelLeaf c (c.height - 1) leaf = leaf + 2 ^ (c.height - 1) ∧
    bucketForLevelLeaf c 0 leaf = 1 := by
  refine ⟨rfl, ?_, ?_⟩
  · unfold bucketForLevelLeaf
    rw [Nat.sub_self, Nat.shiftRight_eq_div_pow, pow_zero, Nat.div_one]
  · have h := bucketForLevelLeaf_range c leaf 0 hleaf (by omega)
    rw [pow_zero, pow_one] at h
    omega

theorem bucket_geometry_witness :
    1 ≤ (OramCfg.mk 3 4).height ∧ 2 < 2 ^ ((OramCfg.mk 3 4).height - 1) ∧
    1 < (OramCfg.mk 3 4).height ∧
    (bucketForLevelLeaf (OramCfg.mk 3 4) 1 2 =
        (2 + 2 ^ ((OramCfg.mk 3 4).height - 1)) >>> ((OramCfg.mk 3 4).height - 1 - 1) ∧
      bucketForLevelLeaf (OramCfg.mk 3 4) ((OramCfg.mk 3 4).height - 1) 2 =
        2 + 2 ^ ((OramCfg.mk 3 4).height - 1) ∧
      bucketForLevelLeaf (OramCfg.mk 3 4) 0 2 = 1) :=
  ⟨by decide, by decide, by decide,
   bucket_geometry (OramCfg.mk 3 4) 2 1 (by decide) (by decide) (by decide)⟩

/-! ## The ORAM consistency check bug -/

/-- Configuration with height 1 and bucket size 1: two buckets, one leaf
(leaf 0), a single path consisting of bucket 1, physical slots 0 and 1. -/
def cfgH1Z1 : OramCfg := OramCfg.mk 1 1

/-- C4: after a single put of block 0 (remapped to leaf 0) on a fresh
height 1, Z 1 ORAM, block 0 sits in slot 1, which is exactly the path of
its mapped leaf 0, so every occupied slot is consistent; yet
checkConsistency raises, because the source throws unconditionally after
scanning the stash for the block (the scan result only breaks the scan
loop and is otherwise ignored). -/
theorem checkConsistency_unconditional_raise :
    (oramPut cfgH1Z1 (oramInit cfgH1Z1 (fun _ => 0)) 0 [5] 0).map
        (fun s => (s.storage 1, s.posMap 0, checkConsistency cfgH1Z1 s)) =
      some (some (0, [5]), 0, Except.error consistencyMsg) ∧
    onPath cfgH1Z1 0 1 := by
  constructor
  · rfl
  · exact ⟨0, by decide, 0, by decide, by decide⟩

/-! ## The path invariant: counterexample as stated -/

/-- C3 counterexample setup: on the height 1, Z 1 ORAM, put block 0 and
then block 1, both remapped to the single leaf 0. -/
def c3run : Option OramState :=
  (oramPut cfgH1Z1 (oramInit cfgH1Z1 (fun _ => 0)) 0 [3] 0).bind
    (fun s1 => oramPut cfgH1Z1 s1 1 [4] 0)

/-- C3 counterexample: after putting blocks 0 and 1 on the height 1, Z 1
ORAM, the single bucket of the path of leaf 0 holds only block 0; block
1, although written, stays in the stash, so it does not reside anywhere
on the path from the root to its mapped leaf. -/
theorem oram_path_invariant_counterexample :
    ∃ s2 : OramState, c3run = some s2 ∧
      s2.storage 1 = some (0, [3]) ∧ s2.posMap 1 = 0 ∧
      stashGet s2.stash 1 = some [4] ∧
      ¬ ∃ a, onPath cfgH1Z1 (s2.posMap 1) a ∧ ∃ v, s2.storage a = some (1, v) := by
  obtain ⟨s2, hc⟩ : ∃ s2, c3run = some s2 := by
    cases hcc : c3run with
    | none => exact absurd (congrArg Option.isNone hcc) (by decide)
    | some s => exact ⟨s, rfl⟩
  have hst : s2.storage 1 = some (0, [3]) := by
    have h2 : c3run.map (fun s => s.storage 1) = some (s2.storage 1) := by rw [hc]; rfl
    have h3 : c3run.map (fun s => s.storage 1) = some (some (0, [3])) := by decide
    exact Option.some.inj (h2.symm.trans h3)
  have hpos : s2.posMap 1 = 0 := by
    have h2 : c3run.map (fun s => s.posMap 1) = some (s2.posMap 1) := by rw [hc]; rfl
    have h3 : c3run.map (fun s => s.posMap 1) = some 0 := by decide
    exact Option.some.inj (h2.symm.trans h3)
  have hstash : stashGet s2.stash 1 = some [4] := by
    have h2 : c3run.map (fun s => stashGet s.stash 1) = some (stashGet s2.stash 1) := by
      rw [hc]; rfl
    have h3 : c3run.map (fun s => stashGet s.stash 1) = some (some [4]) := by decide
    exact Option.some.inj (h2.symm.trans h3)
  refine ⟨s2, hc, hst, hpos, hstash, ?_⟩
  rintro ⟨a, ⟨lv, hlv, i, hi, ha⟩, v, hv⟩
  have hlv0 : lv = 0 := by
    have : lv < 1 := hlv
    omega
  have hi0 : i = 0 := by
    have : i < 1 := hi
    omega
  subst hlv0
  subst hi0
  rw [hpos] at ha
  have ha1 : a = 1 := by
    rw [ha]
    decide
  subst ha1
  rw [hst] at hv
  simp only [Option.some.injEq, Prod.mk.injEq] at hv
  omega


/-! ## B plus tree (modelled from the spec)

The tree implementation file of the repository is not under src (only
its tests are), so the definitions of this section are modelled from the
spec, section 4.2: construction from a sorted batch (data layer, then
index layers of chunks of F pairs keyed by the chunk maximum), the
descent rule of the point query (first pair whose key is at least the
query, else the last pair), and the data layer walk.  Block addresses
are abstracted to positions in the batch, and the node fanout F is a
parameter (the spec computes it from the block size). -/

/-- Modelled from the spec: the constructor precondition of the tree,
blockSize at least 1 plus 3 words plus the value size (tag, next
pointer, key, value must fit a data block); an insufficient block size
fails with the message "block size too small". -/
def treeBlockSizeCheck (w blockSize v : Nat) : Except String Unit :=
  if blockSize < 1 + 3 * w + v then .error "block size too small" else .ok ()

/-- A tree over a batch: either a pointer to data block i (position i of
the batch) or an internal node carrying its (key, child) pairs. -/
inductive BTree where
  | dataIdx (i : Nat)
  | node (pairs : List (Nat × BTree))

/-- Data layer sequence emitted by construction step 1: entry number i
of the batch becomes the pair of its key and a pointer to data block i. -/
def dataLevel : List (Nat × Bytes) → Nat → List (Nat × BTree)
  | [], _ => []
  | (k, _) :: rest, i => (k, BTree.dataIdx i) :: dataLevel rest (i + 1)

/-- Chunks of F consecutive entries, last chunk possibly smaller
(construction step 2).  The F equal 0 case is dead for every
configuration meeting the block size precondition, which makes F at
least 1. -/
def chunkList {α : Type} : Nat → List α → List (List α)
  | _, [] => []
  | 0, _ :: _ => []
  | F + 1, a :: rest =>
    ((a :: rest).take (F + 1)) :: chunkList (F + 1) ((a :: rest).drop (F + 1))
termination_by _ l => l.length
decreasing_by
  simp only [List.length_drop, List.length_cons]
  omega

/-- Maximum key of a chunk (maxKeyInChunk of construction step 2). -/
def chunkKey (ch : List (Nat × BTree)) : Nat := (ch.map Prod.fst).foldr max 0

/-- One index layer of construction step 2: each chunk becomes a node
whose emitted key is the chunk maximum. -/
def buildLevel (F : Nat) (lvl : List (Nat × BTree)) : List (Nat × BTree) :=
  (chunkList F lvl).map (fun ch => (chunkKey ch, BTree.node ch))

theorem chunkList_length_le {α : Type} (F : Nat) (l : List α) :
    (chunkList F l).length ≤ l.length := by
  match F, l with
  | _, [] => simp [chunkList]
  | 0, _ :: _ => simp [chunkList]
  | F + 1, a :: rest =>
    have ih := chunkList_length_le (F + 1) ((a :: rest).drop (F + 1))
    simp only [chunkList, List.length_cons, List.length_drop] at ih ⊢
    omega
termination_by l.length
decreasing_by
  simp only [List.length_drop, List.length_cons]
  omega

theorem chunkList_length_lt {α : Type} (F : Nat) (hF : 2 ≤ F) (l : List α)
    (hl : 2 ≤ l.length) : (chunkList F l).length < l.length := by
  match F, l with
  | F + 1, a :: rest =>
    have ih := chunkList_length_le (F + 1) ((a :: rest).drop (F + 1))
    simp only [chunkList, List.length_cons, List.length_drop] at ih ⊢
    simp at hl
    omega

/-- Construction steps 2 and 3: repeat index layers while more than one
entry remains; the root is the single remaining child.  An empty level
yields no tree; the F lower bound guard is dead under the hypotheses of
the theorems below (a fanout of 1 would make the source loop forever). -/
def buildRoot (F : Nat) (lvl : List (Nat × BTree)) : Option BTree :=
  if lvl.length ≤ 1 then lvl.head?.map Prod.snd
  else if F ≤ 1 then none
  else buildRoot F (buildLevel F lvl)
termination_by lvl.length
decreasing_by
  rename_i h hF
  push_neg at h hF
  have := chunkList_length_lt F (by omega) lvl (by omega)
  simpa [buildLevel] using this

mutual
/-- Descent of the point query (spec search) on a tree: a data pointer
is the landing position in the batch; a node delegates to its pair list. -/
def descend : BTree → Nat → Nat
  | .dataIdx i, _ => i
  | .node pairs, k => descendList pairs k
/-- Descent on the pair list of a node: follow the first pair whose key
is at least the query, and the last pair when no key qualifies. -/
def descendList : List (Nat × BTree) → Nat → Nat
  | [], _ => 0
  | [(_, t)], k => descend t k
  | (key, t) :: e :: rest, k => if k ≤ key then descend t k else descendList (e :: rest) k
end

/-- Data layer walk of the point query: from the landing data block,
follow the chain, collect every payload whose key equals the query, and
stop at the first key strictly greater. -/
def collectEq (k : Nat) : List (Nat × Bytes) → List Bytes
  | [] => []
  | (key, v) :: rest =>
    if k < key then [] else if key = k then v :: collectEq k rest else collectEq k rest

/-- Point query over a tree built from batch D with fanout F: build,
descend from the root, walk the data chain from the landing block, and
append the collected payloads to the output vector. -/
def treeSearch (F : Nat) (D : List (Nat × Bytes)) (k : Nat) (out : List Bytes) : List Bytes :=
  match buildRoot F (dataLevel D 0) with
  | none => out
  | some t => out ++ collectEq k (D.drop (descend t k))

/-- Keys of a batch. -/
def keysOf (D : List (Nat × Bytes)) : List Nat := D.map Prod.fst

/-- Monotonicity of a key list, in getD form. -/
def KeysMonotone (ks : List Nat) : Prop :=
  ∀ i j, i ≤ j → j < ks.length → ks.getD i 0 ≤ ks.getD j 0

mutual
/-- Depth indexed coverage: the tree covers exactly the batch positions
of the half open interval from lo to hi, its data pointers are in range,
and every node key is the key of the last position of its child range. -/
def CoversN (ks : List Nat) : Nat → BTree → Nat → Nat → Prop
  | 0, _, _, _ => False
  | n + 1, .dataIdx i, lo, hi => lo = i ∧ hi = i + 1 ∧ i < ks.length
  | n + 1, .node pairs, lo, hi => pairs ≠ [] ∧ CoversListN ks n pairs lo hi
termination_by n => (n, 0)
/-- Coverage of a pair sequence: consecutive child ranges partition the
interval, and each pair key is the key of the last position of its
child range. -/
def CoversListN (ks : List Nat) : Nat → List (Nat × BTree) → Nat → Nat → Prop
  | _, [], lo, hi => lo = hi
  | n, (key, t) :: rest, lo, hi =>
    ∃ mid, CoversN ks n t lo mid ∧ key = ks.getD (mid - 1) 0 ∧ CoversListN ks n rest mid hi
termination_by n ps => (n, ps.length + 1)
end

mutual
theorem coversN_lt (ks : List Nat) (n : Nat) (t : BTree) (lo hi : Nat)
    (hc : CoversN ks n t lo hi) : lo < hi := by
  match n, t with
  | 0, t =>
    simp only [CoversN] at hc
  | n + 1, .dataIdx i =>
    simp only [CoversN] at hc
    omega
  | n + 1, .node pairs =>
    simp only [CoversN] at hc
    obtain ⟨hne, hcl0⟩ := hc
    match pairs, hne, hcl0 with
    | [], hne, _ => exact absurd rfl hne
    | (key, t) :: rest, _, hcl0 =>
      simp only [CoversListN] at hcl0
      obtain ⟨mid, hct, _, hcl⟩ := hcl0
      have h1 := coversN_lt ks n t lo mid hct
      have h2 := coversListN_le ks n rest mid hi hcl
      omega
termination_by (n, 0)

theorem coversListN_le (ks : List Nat) (n : Nat) (ps : List (Nat × BTree)) (lo hi : Nat)
    (hc : CoversListN ks n ps lo hi) : lo ≤ hi := by
  match ps with
  | [] =>
    simp only [CoversListN] at hc
    omega
  | (key, t) :: rest =>
    simp only [CoversListN] at hc
    obtain ⟨mid, hct, _, hcl⟩ := hc
    have h1 := coversN_lt ks n t lo mid hct
    have h2 := coversListN_le ks n rest mid hi hcl
    omega
termination_by (n, ps.length + 1)
end

mutual
theorem descend_specN (ks : List Nat) (k : Nat) (hs : KeysMonotone ks) (n : Nat)
    (t : BTree) (lo hi : Nat) (hc : CoversN ks n t lo hi) (hlen : hi ≤ ks.length) :
    lo ≤ descend t k ∧ descend t k < hi ∧
      ((∃ j, lo ≤ j ∧ j < hi ∧ k ≤ ks.getD j 0) →
        k ≤ ks.getD (descend t k) 0 ∧
          ∀ j, lo ≤ j → j < descend t k → ks.getD j 0 < k) := by
  match n, t with
  | 0, t =>
    simp only [CoversN] at hc
  | n + 1, .dataIdx i =>
    simp only [CoversN] at hc
    obtain ⟨rfl, rfl, hilen⟩ := hc
    refine ⟨le_refl _, by simp [descend], ?_⟩
    rintro ⟨j, hj1, hj2, hj3⟩
    have : j = lo := by omega
    subst this
    exact ⟨by simpa [descend] using hj3, by intro j h1 h2; simp [descend] at h2; omega⟩
  | n + 1, .node pairs =>
    simp only [CoversN] at hc
    have := descendList_specN ks k hs n pairs lo hi hc.1 hc.2 hlen
    simpa [descend] using this
termination_by (n, 0)

theorem descendList_specN (ks : List Nat) (k : Nat) (hs : KeysMonotone ks) (n : Nat)
    (ps : List (Nat × BTree)) (lo hi : Nat) (hps : ps ≠ [])
    (hc : CoversListN ks n ps lo hi) (hlen : hi ≤ ks.length) :
    lo ≤ descendList ps k ∧ descendList ps k < hi ∧
      ((∃ j, lo ≤ j ∧ j < hi ∧ k ≤ ks.getD j 0) →
        k ≤ ks.getD (descendList ps k) 0 ∧
          ∀ j, lo ≤ j → j < descendList ps k → ks.getD j 0 < k) := by
  match ps with
  | [] => exact absurd rfl hps
  | [(key, t)] =>
    simp only [CoversListN] at hc
    obtain ⟨mid, hct, hkey, hnil⟩ := hc
    rw [hnil] at hct
    simpa [descendList] using descend_specN ks k hs n t lo hi hct hlen
  | (key, t) :: e :: rest =>
    simp only [CoversListN] at hc
    obtain ⟨mid, hct, hkey, hcl⟩ := hc
    have hlomid := coversN_lt ks n t lo mid hct
    have hmidhi := coversListN_le ks n (e :: rest) mid hi hcl
    simp only [descendList]
    by_cases hk : k ≤ key
    · rw [if_pos hk]
      have ih := descend_specN ks k hs n t lo mid hct (by omega)
      have hA : ∃ j, lo ≤ j ∧ j < mid ∧ k ≤ ks.getD j 0 :=
        ⟨mid - 1, by omega, by omega, by rw [← hkey]; exact hk⟩
      refine ⟨ih.1, by omega, ?_⟩
      intro _
      exact ⟨(ih.2.2 hA).1, fun j h1 h2 => (ih.2.2 hA).2 j h1 h2⟩
    · rw [if_neg hk]
      push_neg at hk
      have ih := descendList_specN ks k hs n (e :: rest) mid hi (by simp) hcl hlen
      have hsmall : ∀ j, lo ≤ j → j < mid → ks.getD j 0 < k := by
        intro j h1 h2
        have : ks.getD j 0 ≤ ks.getD (mid - 1) 0 := hs j (mid - 1) (by omega) (by omega)
        rw [← hkey] at this
        omega
      refine ⟨by omega, ih.2.1, ?_⟩
      rintro ⟨j, hj1, hj2, hj3⟩
      have hjmid : mid ≤ j := by
        by_contra hlt
        push_neg at hlt
        have := hsmall j hj1 hlt
        omega
      have ihc := ih.2.2 ⟨j, hjmid, hj2, hj3⟩
      refine ⟨ihc.1, ?_⟩
      intro j2 h1 h2
      by_cases hj2mid : j2 < mid
      · exact hsmall j2 h1 hj2mid
      · exact ihc.2 j2 (by omega) h2
termination_by (n, ps.length + 1)
end

theorem keysOf_getD (D : List (Nat × Bytes)) (i : Nat) (h : i < D.length) :
    (keysOf D).getD i 0 = (D.getD i (0, [])).1 := by
  rw [List.getD_eq_getElem _ _ (by simpa [keysOf] using h), List.getD_eq_getElem _ _ h]
  simp [keysOf]

theorem dataLevel_coversN (ks : List Nat) :
    ∀ (E : List (Nat × Bytes)) (i : Nat),
      (∀ j, j < E.length → (E.getD j (0, [])).1 = ks.getD (i + j) 0) →
      i + E.length ≤ ks.length →
      CoversListN ks 1 (dataLevel E i) i (i + E.length) := by
  intro E
  induction E with
  | nil =>
    intro i _ _
    simp [dataLevel, CoversListN]
  | cons hd rest ih =>
    intro i hkeys hlen
    obtain ⟨k, v⟩ := hd
    simp only [dataLevel, CoversListN]
    refine ⟨i + 1, ?_, ?_, ?_⟩
    · have hik : i < ks.length := by
        simp only [List.length_cons] at hlen
        omega
      simp [CoversN, hik]
    · have := hkeys 0 (by simp)
      simpa using this
    · have hrest := ih (i + 1)
        (by
          intro j hj
          have := hkeys (j + 1) (by simpa using Nat.succ_lt_succ hj)
          simpa [Nat.add_assoc, Nat.add_comm 1 j] using this)
        (by simp only [List.length_cons] at hlen; omega)
      have harith : i + 1 + rest.length = i + (rest.length + 1) := by omega
      simp only [List.length_cons]
      rw [← harith]
      exact hrest

theorem chunkKey_eq (ks : List Nat) (hs : KeysMonotone ks) (n : Nat) :
    ∀ (ch : List (Nat × BTree)) (lo hi : Nat), ch ≠ [] →
      CoversListN ks n ch lo hi → hi ≤ ks.length → chunkKey ch = ks.getD (hi - 1) 0 := by
  intro ch
  induction ch with
  | nil => intro lo hi h; exact absurd rfl h
  | cons hd rest ih =>
    intro lo hi _ hc hlen
    obtain ⟨key, t⟩ := hd
    simp only [CoversListN] at hc
    obtain ⟨mid, hct, hkey, hcl⟩ := hc
    have hlomid := coversN_lt ks n t lo mid hct
    cases rest with
    | nil =>
      simp only [CoversListN] at hcl
      subst hcl
      simp [chunkKey, hkey]
    | cons e rest2 =>
      have hmidhi := coversListN_le ks n (e :: rest2) mid hi hcl
      have hmidlt : mid < hi := by
        obtain ⟨e1, e2⟩ := e
        simp only [CoversListN] at hcl
        obtain ⟨mid2, hct2, _, hcl2⟩ := hcl
        have := coversN_lt ks n e2 mid mid2 hct2
        have := coversListN_le ks n rest2 mid2 hi hcl2
        omega
      have ihv := ih mid hi (by simp) hcl hlen
      have hle : key ≤ ks.getD (hi - 1) 0 := by
        rw [hkey]
        exact hs (mid - 1) (hi - 1) (by omega) (by omega)
      calc chunkKey ((key, t) :: e :: rest2) = max key (chunkKey (e :: rest2)) := by
            simp [chunkKey]
        _ = ks.getD (hi - 1) 0 := by rw [ihv]; exact max_eq_right (ihv ▸ hle)

theorem coversListN_split (ks : List Nat) (n : Nat) :
    ∀ (ps : List (Nat × BTree)) (F lo hi : Nat), CoversListN ks n ps lo hi →
      ∃ mid, CoversListN ks n (ps.take F) lo mid ∧ CoversListN ks n (ps.drop F) mid hi := by
  intro ps
  induction ps with
  | nil =>
    intro F lo hi hc
    exact ⟨lo, by simp [CoversListN], by simpa [CoversListN] using hc⟩
  | cons hd rest ih =>
    intro F lo hi hc
    obtain ⟨key, t⟩ := hd
    cases F with
    | zero => exact ⟨lo, by simp [CoversListN], by simpa [CoversListN] using hc⟩
    | succ F =>
      simp only [CoversListN] at hc
      obtain ⟨mid1, hct, hkey, hcl⟩ := hc
      obtain ⟨mid, h1, h2⟩ := ih F mid1 hi hcl
      refine ⟨mid, ?_, ?_⟩
      · simp only [List.take_succ_cons, CoversListN]
        exact ⟨mid1, hct, hkey, h1⟩
      · simpa using h2

theorem buildLevel_ne_nil (F : Nat) (hF : 1 ≤ F) (lvl : List (Nat × BTree))
    (h : lvl ≠ []) : buildLevel F lvl ≠ [] := by
  cases lvl with
  | nil => exact absurd rfl h
  | cons a rest =>
    cases F with
    | zero => omega
    | succ F => simp [buildLevel, chunkList]

theorem buildLevel_coversN (ks : List Nat) (hs : KeysMonotone ks) (F : Nat) (hF : 1 ≤ F)
    (n : Nat) (lvl : List (Nat × BTree)) (lo hi : Nat)
    (hc : CoversListN ks n lvl lo hi) (hlen : hi ≤ ks.length) :
    CoversListN ks (n + 1) (buildLevel F lvl) lo hi := by
  match F, lvl with
  | F, [] =>
    simp only [CoversListN] at hc
    simp [buildLevel, chunkList, CoversListN, hc]
  | F + 1, a :: rest =>
    obtain ⟨mid, htake, hdrop⟩ := coversListN_split ks n (a :: rest) (F + 1) lo hi hc
    have hmidhi := coversListN_le ks n ((a :: rest).drop (F + 1)) mid hi hdrop
    have htkne : (a :: rest).take (F + 1) ≠ [] := by simp
    have hkey := chunkKey_eq ks hs n ((a :: rest).take (F + 1)) lo mid htkne htake (by omega)
    have hrec := buildLevel_coversN ks hs (F + 1) hF n ((a :: rest).drop (F + 1)) mid hi
      hdrop hlen
    show CoversListN ks (n + 1)
      ((chunkList (F + 1) (a :: rest)).map (fun ch => (chunkKey ch, BTree.node ch))) lo hi
    rw [chunkList]
    simp only [List.map_cons, CoversListN]
    refine ⟨mid, ?_, hkey, ?_⟩
    · simp only [CoversN]
      exact ⟨htkne, htake⟩
    · exact hrec
termination_by lvl.length
decreasing_by
  simp only [List.length_drop, List.length_cons]
  omega

theorem buildRoot_coversN (ks : List Nat) (hs : KeysMonotone ks) (F : Nat) (hF : 2 ≤ F)
    (lvl : List (Nat × BTree)) (lo hi n : Nat) (hne : lvl ≠ [])
    (hc : CoversListN ks n lvl lo hi) (hlen : hi ≤ ks.length) :
    ∃ t m, buildRoot F lvl = some t ∧ CoversN ks m t lo hi := by
  match lvl, hne with
  | [(key, t)], _ =>
    simp only [CoversListN] at hc
    obtain ⟨mid, hct, hkey, hnil⟩ := hc
    rw [hnil] at hct
    refine ⟨t, n, ?_, hct⟩
    rw [buildRoot]
    simp
  | (a1 :: a2 :: rest), _ =>
    have hlong : ¬ (a1 :: a2 :: rest).length ≤ 1 := by simp
    have hrec := buildRoot_coversN ks hs F hF (buildLevel F (a1 :: a2 :: rest)) lo hi (n + 1)
      (buildLevel_ne_nil F (by omega) _ (by simp))
      (buildLevel_coversN ks hs F (by omega) n (a1 :: a2 :: rest) lo hi hc hlen) hlen
    obtain ⟨t, m, hbr, hct⟩ := hrec
    refine ⟨t, m, ?_, hct⟩
    rw [buildRoot, if_neg hlong, if_neg (by omega)]
    exact hbr
termination_by lvl.length
decreasing_by
  have := chunkList_length_lt F hF (a1 :: a2 :: rest) (by simp)
  simpa [buildLevel] using this

theorem collectEq_sorted (k : Nat) :
    ∀ L : List (Nat × Bytes), List.Pairwise (fun a b => a.1 ≤ b.1) L →
      collectEq k L = (L.filter (fun e => e.1 == k)).map Prod.snd := by
  intro L
  induction L with
  | nil => intro _; rfl
  | cons hd rest ih =>
    intro hp
    obtain ⟨key, v⟩ := hd
    rw [List.pairwise_cons] at hp
    by_cases h1 : k < key
    · have hall : (((key, v) :: rest).filter (fun e => e.1 == k)) = [] := by
        rw [List.filter_eq_nil_iff]
        rintro ⟨a1, a2⟩ hmem
        rcases List.mem_cons.mp hmem with heq | hmem2
        · simp only [Prod.mk.injEq] at heq
          simp only [beq_iff_eq]
          omega
        · have := hp.1 (a1, a2) hmem2
          simp only at this
          simp only [beq_iff_eq]
          omega
      rw [hall]
      simp [collectEq, h1]
    · by_cases h2 : key = k
      · subst h2
        simp only [collectEq, if_neg h1, if_pos rfl]
        rw [ih hp.2]
        simp
      · simp only [collectEq, if_neg h1, if_neg h2]
        rw [ih hp.2]
        have : ((key : Nat) == k) = false := by
          simp only [beq_eq_false_iff_ne, ne_eq]
          exact h2
        simp [this]

/-- C9: the tree construction precondition, modelled from the spec:
building over a batch of values of length v requires blockSize at least
1 plus 3 wordSize plus v, an insufficient block size fails with the
message "block size too small", and in particular a block size of 4
words fails whenever the value length is at least the word size (the
tests use values of length 100). -/
theorem tree_build_threshold (w blockSize v : Nat) (hsmall : blockSize < 1 + 3 * w + v)
    (hv : w ≤ v) :
    treeBlockSizeCheck w blockSize v = .error "block size too small" ∧
    treeBlockSizeCheck w (4 * w) v = .error "block size too small" := by
  constructor
  · rw [treeBlockSizeCheck, if_pos hsmall]
  · rw [treeBlockSizeCheck, if_pos (by omega)]

theorem tree_build_threshold_witness :
    (32 : Nat) < 1 + 3 * wordSize + 100 ∧ wordSize ≤ 100 ∧
    (treeBlockSizeCheck wordSize 32 100 = .error "block size too small" ∧
     treeBlockSizeCheck wordSize (4 * wordSize) 100 = .error "block size too small") :=
  ⟨by decide, by decide, tree_build_threshold wordSize 32 100 (by decide) (by decide)⟩

/-- C2: point search on a tree built with fanout at least 2 from a batch
sorted by key (duplicates allowed): the search appends to the output
vector exactly the payloads of the batch entries whose key equals the
query, in batch order; a missing key leaves the output unchanged (the
appended list is empty). -/
theorem tree_point_search (F : Nat) (D : List (Nat × Bytes)) (k : Nat) (out : List Bytes)
    (hsorted : List.Pairwise (fun a b => a.1 ≤ b.1) D) (hF : 2 ≤ F) :
    treeSearch F D k out = out ++ (D.filter (fun e => e.1 == k)).map Prod.snd := by
  have hks : KeysMonotone (keysOf D) := by
    intro i j hij hj
    simp only [keysOf, List.length_map] at hj
    rcases Nat.eq_or_lt_of_le hij with rfl | hlt
    · exact le_refl _
    · rw [List.getD_eq_getElem _ _ (by simpa [keysOf] using by omega),
        List.getD_eq_getElem _ _ (by simpa [keysOf] using hj)]
      simp only [keysOf, List.getElem_map]
      exact (List.pairwise_iff_getElem.mp hsorted) i j (by omega) (by omega) hlt
  cases hD : D with
  | nil =>
    subst hD
    show treeSearch F [] k out = out ++ []
    rw [List.append_nil]
    have hb : buildRoot F (dataLevel [] 0) = none := by
      rw [buildRoot]
      simp [dataLevel]
    unfold treeSearch
    rw [hb]
  | cons d0 drest =>
    rw [← hD]
    have hDne : D ≠ [] := by rw [hD]; simp
    have hdl : CoversListN (keysOf D) 1 (dataLevel D 0) 0 (0 + D.length) := by
      apply dataLevel_coversN
      · intro j hj
        simp only [Nat.zero_add]
        rw [keysOf_getD D j hj]
      · simp [keysOf]
    have hdlne : dataLevel D 0 ≠ [] := by
      rw [hD]
      obtain ⟨a, b⟩ := d0
      simp [dataLevel]
    have hlenks : 0 + D.length ≤ (keysOf D).length := by simp [keysOf]
    obtain ⟨t, m, hroot, hcov⟩ :=
      buildRoot_coversN (keysOf D) hks F hF (dataLevel D 0) 0 (0 + D.length) 1 hdlne hdl
        hlenks
    have hspec := descend_specN (keysOf D) k hks m t 0 (0 + D.length) hcov hlenks
    simp only [Nat.zero_add] at hspec
    set d := descend t k with hd
    have hsearch : treeSearch F D k out = out ++ collectEq k (D.drop d) := by
      rw [treeSearch, hroot]
    rw [hsearch]
    have hdropsorted : List.Pairwise (fun a b : Nat × Bytes => a.1 ≤ b.1) (D.drop d) :=
      List.Pairwise.sublist (List.drop_sublist d D) hsorted
    rw [collectEq_sorted k (D.drop d) hdropsorted]
    congr 1
    congr 1
    by_cases hA : ∃ j, j < D.length ∧ k ≤ (keysOf D).getD j 0
    · obtain ⟨hd0, hdlt, hmin⟩ := hspec
      have hminA := hmin (by
        obtain ⟨j, hj1, hj2⟩ := hA
        exact ⟨j, by omega, hj1, hj2⟩)
      have hpref : D.filter (fun e => e.1 == k) = (D.drop d).filter (fun e => e.1 == k) := by
        conv_lhs => rw [← List.take_append_drop d D]
        rw [List.filter_append]
        have htake : (D.take d).filter (fun e => e.1 == k) = [] := by
          rw [List.filter_eq_nil_iff]
          intro e hmem
          obtain ⟨i, hi, hie⟩ := List.mem_iff_getElem.mp hmem
          have hiD : i < D.length := by
            have := List.length_take d D
            omega
          have hkey : e.1 = (keysOf D).getD i 0 := by
            rw [← hie, List.getElem_take]
            rw [List.getD_eq_getElem _ _ (by simpa [keysOf] using hiD)]
            simp [keysOf]
          have hid : i < d := by
            have := List.length_take d D
            omega
          have := hminA.2 i (by omega) hid
          rw [← hkey] at this
          simp only [beq_iff_eq]
          omega
        rw [htake]
        simp
      rw [hpref]
    · push_neg at hA
      have hallne : ∀ e ∈ D, (e.1 == k) = false := by
        intro e hmem
        obtain ⟨i, hi, hie⟩ := List.mem_iff_getElem.mp hmem
        have := hA i hi
        have hkey : e.1 = (keysOf D).getD i 0 := by
          rw [← hie, List.getD_eq_getElem _ _ (by simpa [keysOf] using hi)]
          simp [keysOf]
        simp only [beq_eq_false_iff_ne, ne_eq]
        omega
      have h1 : D.filter (fun e => e.1 == k) = [] := by
        rw [List.filter_eq_nil_iff]
        intro e hmem
        simp [hallne e hmem]
      have h2 : (D.drop d).filter (fun e => e.1 == k) = [] := by
        rw [List.filter_eq_nil_iff]
        intro e hmem
        simp [hallne e (List.mem_of_mem_drop hmem)]
      rw [h1, h2]

theorem tree_point_search_witness :
    List.Pairwise (fun a b : Nat × Bytes => a.1 ≤ b.1)
      [(5, [1]), (5, [2]), (7, [3]), (9, [4])] ∧ (2 : Nat) ≤ 2 ∧
    treeSearch 2 [(5, [1]), (5, [2]), (7, [3]), (9, [4])] 5 [[9]] =
      [[9]] ++ (([(5, [1]), (5, [2]), (7, [3]), (9, [4])].filter
        (fun e : Nat × Bytes => e.1 == 5)).map Prod.snd) :=
  ⟨by decide, by decide,
   tree_point_search 2 [(5, [1]), (5, [2]), (7, [3]), (9, [4])] 5 [[9]] (by decide)
     (by decide)⟩


/-! ## ORAM invariant machinery: stash lemmas -/

/-- Keys of a stash. -/
def stashKeys (st : List (Nat × Bytes)) : List Nat := st.map Prod.fst

theorem stashGet_eq_none_iff (st : List (Nat × Bytes)) (b : Nat) :
    stashGet st b = none ↔ b ∉ stashKeys st := by
  induction st with
  | nil => simp [stashGet, stashKeys]
  | cons e rest ih =>
    obtain ⟨k, v⟩ := e
    simp only [stashKeys, List.map_cons, List.mem_cons] at ih ⊢
    by_cases h : k = b
    · subst h
      simp [stashGet]
    · simp only [stashGet, if_neg h]
      rw [ih]
      constructor
      · intro h1
        intro h2
        rcases h2 with h2 | h2
        · exact h (h2.symm)
        · exact h1 h2
      · intro h1 h2
        exact h1 (Or.inr h2)

theorem stashGet_some_mem (st : List (Nat × Bytes)) (b : Nat) (v : Bytes)
    (h : stashGet st b = some v) : (b, v) ∈ st := by
  induction st with
  | nil => simp [stashGet] at h
  | cons e rest ih =>
    obtain ⟨k, w⟩ := e
    simp only [stashGet] at h
    by_cases hk : k = b
    · rw [if_pos hk] at h
      injection h with h
      subst hk
      subst h
      simp
    · rw [if_neg hk] at h
      exact List.mem_cons_of_mem _ (ih h)

theorem stashGet_of_mem_nodup (st : List (Nat × Bytes)) (b : Nat) (v : Bytes)
    (hnd : (stashKeys st).Nodup) (h : (b, v) ∈ st) : stashGet st b = some v := by
  induction st with
  | nil => simp at h
  | cons e rest ih =>
    obtain ⟨k, w⟩ := e
    simp only [stashKeys, List.map_cons, List.nodup_cons] at hnd
    simp only [stashGet]
    rcases List.mem_cons.mp h with heq | hmem
    · simp only [Prod.mk.injEq] at heq
      obtain ⟨rfl, rfl⟩ := heq
      rw [if_pos rfl]
    · have hkb : ¬ k = b := by
        intro hkb
        subst hkb
        exact hnd.1 (List.mem_map_of_mem Prod.fst hmem)
      rw [if_neg hkb]
      exact ih hnd.2 hmem

theorem stashGet_stashAdd_self (st : List (Nat × Bytes)) (b : Nat) (v : Bytes) :
    stashGet (stashAdd st b v) b = some v := by
  induction st with
  | nil => simp [stashAdd, stashGet]
  | cons e rest ih =>
    obtain ⟨k, w⟩ := e
    simp only [stashAdd]
    by_cases hk : k = b
    · rw [if_pos hk]
      simp [stashGet]
    · rw [if_neg hk]
      simp only [stashGet, if_neg hk]
      exact ih

theorem stashGet_stashAdd_ne (st : List (Nat × Bytes)) (b j : Nat) (v : Bytes)
    (h : b ≠ j) : stashGet (stashAdd st b v) j = stashGet st j := by
  induction st with
  | nil => simp [stashAdd, stashGet, h]
  | cons e rest ih =>
    obtain ⟨k, w⟩ := e
    simp only [stashAdd]
    by_cases hk : k = b
    · rw [if_pos hk]
      subst hk
      simp only [stashGet, if_neg (show ¬ k = j from h)]
    · rw [if_neg hk]
      simp only [stashGet]
      by_cases hkj : k = j
      · rw [if_pos hkj, if_pos hkj]
      · rw [if_neg hkj, if_neg hkj, ih]

theorem mem_stashKeys_stashAdd (rest : List (Nat × Bytes)) (b x : Nat) (v : Bytes)
    (h : x ∈ stashKeys (stashAdd rest b v)) : x = b ∨ x ∈ stashKeys rest := by
  induction rest with
  | nil => simpa [stashAdd, stashKeys] using h
  | cons e2 rest2 ih2 =>
    obtain ⟨k2, w2⟩ := e2
    simp only [stashAdd] at h
    by_cases hk2 : k2 = b
    · rw [if_pos hk2] at h
      simp only [stashKeys, List.map_cons, List.mem_cons] at h ⊢
      rcases h with h | h
      · exact Or.inl h
      · exact Or.inr (Or.inr h)
    · rw [if_neg hk2] at h
      simp only [stashKeys, List.map_cons, List.mem_cons] at h ⊢
      rcases h with h | h
      · exact Or.inr (Or.inl h)
      · rcases ih2 h with h2 | h2
        · exact Or.inl h2
        · exact Or.inr (Or.inr h2)

theorem stashKeys_stashAdd_nodup (st : List (Nat × Bytes)) (b : Nat) (v : Bytes)
    (hnd : (stashKeys st).Nodup) : (stashKeys (stashAdd st b v)).Nodup := by
  induction st with
  | nil => simp [stashAdd, stashKeys]
  | cons e rest ih =>
    obtain ⟨k, w⟩ := e
    simp only [stashKeys, List.map_cons, List.nodup_cons] at hnd
    simp only [stashAdd]
    by_cases hk : k = b
    · rw [if_pos hk]
      subst hk
      simp only [stashKeys, List.map_cons, List.nodup_cons]
      exact hnd
    · rw [if_neg hk]
      simp only [stashKeys, List.map_cons, List.nodup_cons]
      refine ⟨?_, ih hnd.2⟩
      intro hmem
      rcases mem_stashKeys_stashAdd rest b k v (by simpa [stashKeys] using hmem) with h1 | h1
      · exact hk h1
      · exact hnd.1 (by simpa [stashKeys] using h1)

theorem stashGet_filter_erase (rest : List (Nat × Bytes)) (k j : Nat) :
    stashGet (rest.filter (fun e => e.1 != k)) j = if j = k then none else stashGet rest j := by
  induction rest with
  | nil => simp [stashGet]
  | cons e rest2 ih =>
    obtain ⟨a, w⟩ := e
    simp only [List.filter_cons]
    by_cases hak : a = k
    · subst hak
      simp only [bne_self_eq_false, Bool.false_eq_true, if_false]
      rw [ih]
      by_cases hj : j = a
      · rw [if_pos hj, if_pos hj]
      · rw [if_neg hj, if_neg hj]
        simp only [stashGet]
        rw [if_neg (show ¬ a = j from fun h2 => hj h2.symm)]
    · have hb : (a != k) = true := by simpa using hak
      rw [hb]
      simp only [stashGet]
      by_cases haj : a = j
      · subst haj
        rw [if_pos rfl, if_neg (show ¬ a = k from hak), if_pos rfl]
      · rw [if_neg haj, ih]
        by_cases hjk : j = k
        · rw [if_pos hjk, if_pos hjk]
        · rw [if_neg hjk, if_neg hjk, if_neg haj]

theorem stashGet_stashEraseKey (st : List (Nat × Bytes)) (k j : Nat) :
    stashGet (stashEraseKey st k) j = if j = k then none else stashGet st j :=
  stashGet_filter_erase st k j

theorem stashGet_eraseFold (ks : List Nat) (st : List (Nat × Bytes)) (j : Nat) :
    stashGet (ks.foldl stashEraseKey st) j = if j ∈ ks then none else stashGet st j := by
  induction ks generalizing st with
  | nil => simp
  | cons k ks ih =>
    simp only [List.foldl_cons]
    rw [ih]
    by_cases hjk : j = k
    · subst hjk
      simp [stashGet_stashEraseKey]
    · by_cases hjks : j ∈ ks
      · simp [hjks]
      · simp only [List.mem_cons]
        have hne : ¬ (j = k ∨ j ∈ ks) := by
          rintro (h | h)
          · exact hjk h
          · exact hjks h
        rw [if_neg hne, if_neg hjks, stashGet_stashEraseKey, if_neg hjk]

theorem eraseFold_sublist (ks : List Nat) (st : List (Nat × Bytes)) :
    (ks.foldl stashEraseKey st).Sublist st := by
  induction ks generalizing st with
  | nil => simp
  | cons k ks ih =>
    simp only [List.foldl_cons]
    exact (ih (stashEraseKey st k)).trans (List.filter_sublist st)

/-! ## ORAM invariant machinery: readPath lemmas -/

theorem readFold_nodup (stor : Nat → Option (Nat × Bytes)) (L : List Nat)
    (st : List (Nat × Bytes)) (hnd : (stashKeys st).Nodup) :
    (stashKeys (readFold stor L st)).Nodup := by
  induction L generalizing st with
  | nil => exact hnd
  | cons a L ih =>
    simp only [readFold, List.foldl_cons]
    cases hs : stor a with
    | none =>
      simp only [hs]
      exact ih st hnd
    | some e =>
      obtain ⟨k, v⟩ := e
      simp only [hs]
      exact ih _ (stashKeys_stashAdd_nodup st k v hnd)

theorem readFold_preserve (stor : Nat → Option (Nat × Bytes)) (L : List Nat)
    (st : List (Nat × Bytes)) (j : Nat)
    (hno : ∀ a ∈ L, ∀ w, stor a ≠ some (j, w)) :
    stashGet (readFold stor L st) j = stashGet st j := by
  induction L generalizing st with
  | nil => rfl
  | cons a L ih =>
    simp only [readFold, List.foldl_cons]
    cases hs : stor a with
    | none =>
      simp only [hs]
      exact ih st (fun a2 h2 => hno a2 (List.mem_cons_of_mem _ h2))
    | some e =>
      obtain ⟨k, v⟩ := e
      simp only [hs]
      rw [show List.foldl _ (stashAdd st k v) L = readFold stor L (stashAdd st k v) from rfl]
      rw [ih _ (fun a2 h2 => hno a2 (List.mem_cons_of_mem _ h2))]
      have hkj : k ≠ j := by
        intro hkj
        subst hkj
        exact hno a (List.mem_cons_self a L) v hs
      exact stashGet_stashAdd_ne st k j v hkj

theorem readFold_keep (stor : Nat → Option (Nat × Bytes)) (L : List Nat)
    (st : List (Nat × Bytes)) (j : Nat) (v : Bytes)
    (hst : stashGet st j = some v)
    (hall : ∀ a ∈ L, ∀ w, stor a = some (j, w) → w = v) :
    stashGet (readFold stor L st) j = some v := by
  induction L generalizing st with
  | nil => exact hst
  | cons a L ih =>
    simp only [readFold, List.foldl_cons]
    cases hs : stor a with
    | none =>
      simp only [hs]
      exact ih st hst (fun a2 h2 => hall a2 (List.mem_cons_of_mem _ h2))
    | some e =>
      obtain ⟨k, w⟩ := e
      simp only [hs]
      refine ih (stashAdd st k w) ?_ (fun a2 h2 => hall a2 (List.mem_cons_of_mem _ h2))
      by_cases hkj : k = j
      · subst hkj
        have : w = v := hall a (List.mem_cons_self a L) w hs
        subst this
        exact stashGet_stashAdd_self st k w
      · rw [stashGet_stashAdd_ne st k j w hkj]
        exact hst

theorem readFold_found (stor : Nat → Option (Nat × Bytes)) (L : List Nat)
    (st : List (Nat × Bytes)) (j : Nat) (v : Bytes) (a0 : Nat)
    (ha0 : a0 ∈ L) (hhit : stor a0 = some (j, v))
    (hall : ∀ a ∈ L, ∀ w, stor a = some (j, w) → w = v) :
    stashGet (readFold stor L st) j = some v := by
  induction L generalizing st with
  | nil => simp at ha0
  | cons a L ih =>
    simp only [readFold, List.foldl_cons]
    by_cases haa : a = a0
    · subst haa
      rw [hhit]
      exact readFold_keep stor L (stashAdd st j v) j v (stashGet_stashAdd_self st j v)
        (fun a2 h2 => hall a2 (List.mem_cons_of_mem _ h2))
    · have ha0L : a0 ∈ L := by
        rcases List.mem_cons.mp ha0 with h | h
        · exact absurd h.symm haa
        · exact h
      cases hs : stor a with
      | none =>
        simp only [hs]
        exact ih st ha0L (fun a2 h2 w hw => hall a2 (List.mem_cons_of_mem _ h2) w hw)
      | some e =>
        obtain ⟨k, w⟩ := e
        simp only [hs]
        exact ih (stashAdd st k w) ha0L
          (fun a2 h2 w2 hw => hall a2 (List.mem_cons_of_mem _ h2) w2 hw)

theorem readFold_origin (stor : Nat → Option (Nat × Bytes)) (L : List Nat)
    (st : List (Nat × Bytes)) (j : Nat) (v : Bytes)
    (h : stashGet (readFold stor L st) j = some v) :
    stashGet st j = some v ∨ ∃ a ∈ L, stor a = some (j, v) := by
  induction L generalizing st with
  | nil => exact Or.inl h
  | cons a L ih =>
    simp only [readFold, List.foldl_cons] at h
    cases hs : stor a with
    | none =>
      rw [hs] at h
      rcases ih st h with h1 | ⟨a2, h2, h3⟩
      · exact Or.inl h1
      · exact Or.inr ⟨a2, List.mem_cons_of_mem _ h2, h3⟩
    | some e =>
      obtain ⟨k, w⟩ := e
      rw [hs] at h
      rcases ih (stashAdd st k w) h with h1 | ⟨a2, h2, h3⟩
      · by_cases hkj : k = j
        · subst hkj
          rw [stashGet_stashAdd_self st k w] at h1
          injection h1 with h1
          subst h1
          exact Or.inr ⟨a, List.mem_cons_self a L, hs⟩
        · rw [stashGet_stashAdd_ne st k j w hkj] at h1
          exact Or.inl h1
      · exact Or.inr ⟨a2, List.mem_cons_of_mem _ h2, h3⟩

/-! ## ORAM invariant machinery: buckets, paths, levels -/

/-- Slot address range of the bucket at a level on the path of a leaf. -/
def inBucketRange (c : OramCfg) (leaf level a : Nat) : Prop :=
  bucketForLevelLeaf c level leaf * c.Z ≤ a ∧
    a < bucketForLevelLeaf c level leaf * c.Z + c.Z

theorem bucketForLevelLeaf_lt_of_level_lt (c : OramCfg) (leaf l1 l2 : Nat)
    (h12 : l1 < l2) (h2 : l2 < c.height) :
    bucketForLevelLeaf c l1 leaf < bucketForLevelLeaf c l2 leaf := by
  unfold bucketForLevelLeaf
  rw [Nat.shiftRight_eq_div_pow, Nat.shiftRight_eq_div_pow]
  have hm : c.height - 1 - l1 = (c.height - 1 - l2) + (l2 - l1) := by omega
  rw [hm, pow_add, ← Nat.div_div_eq_div_mul]
  have hy : 1 ≤ (leaf + 2 ^ (c.height - 1)) / 2 ^ (c.height - 1 - l2) := by
    rw [Nat.le_div_iff_mul_le (Nat.pos_pow_of_pos _ (by omega))]
    calc 1 * 2 ^ (c.height - 1 - l2) = 2 ^ (c.height - 1 - l2) := one_mul _
      _ ≤ 2 ^ (c.height - 1) := Nat.pow_le_pow_right (by omega) (by omega)
      _ ≤ leaf + 2 ^ (c.height - 1) := by omega
  calc (leaf + 2 ^ (c.height - 1)) / 2 ^ (c.height - 1 - l2) / 2 ^ (l2 - l1)
      ≤ (leaf + 2 ^ (c.height - 1)) / 2 ^ (c.height - 1 - l2) / 2 := by
        apply Nat.div_le_div_left
        · calc (2 : Nat) = 2 ^ 1 := (pow_one 2).symm
            _ ≤ 2 ^ (l2 - l1) := Nat.pow_le_pow_right (by omega) (by omega)
        · omega
    _ < (leaf + 2 ^ (c.height - 1)) / 2 ^ (c.height - 1 - l2) := by
        apply Nat.div_lt_self (by omega) (by omega)

theorem inBucketRange_level_inj (c : OramCfg) (leaf l1 l2 a : Nat)
    (h1 : l1 < c.height) (h2 : l2 < c.height)
    (hr1 : inBucketRange c leaf l1 a) (hr2 : inBucketRange c leaf l2 a) : l1 = l2 := by
  by_contra hne
  rcases Nat.lt_or_ge l1 l2 with hlt | hge
  · have hb := bucketForLevelLeaf_lt_of_level_lt c leaf l1 l2 hlt h2
    obtain ⟨ha1, ha2⟩ := hr1
    obtain ⟨hb1, hb2⟩ := hr2
    have : (bucketForLevelLeaf c l1 leaf + 1) * c.Z ≤ bucketForLevelLeaf c l2 leaf * c.Z :=
      Nat.mul_le_mul_right _ (by omega)
    rw [Nat.add_mul, one_mul] at this
    omega
  · have hlt2 : l2 < l1 := by omega
    have hb := bucketForLevelLeaf_lt_of_level_lt c leaf l2 l1 hlt2 h1
    obtain ⟨ha1, ha2⟩ := hr1
    obtain ⟨hb1, hb2⟩ := hr2
    have : (bucketForLevelLeaf c l2 leaf + 1) * c.Z ≤ bucketForLevelLeaf c l1 leaf * c.Z :=
      Nat.mul_le_mul_right _ (by omega)
    rw [Nat.add_mul, one_mul] at this
    omega

theorem mem_pathAddrs_iff (c : OramCfg) (leaf a : Nat) :
    a ∈ pathAddrs c leaf ↔ ∃ l, l < c.height ∧ inBucketRange c leaf l a := by
  unfold pathAddrs
  rw [List.mem_flatMap]
  constructor
  · rintro ⟨l, hl, hmem⟩
    rw [List.mem_range] at hl
    rw [List.mem_map] at hmem
    obtain ⟨i, hi, rfl⟩ := hmem
    rw [List.mem_range] at hi
    exact ⟨l, hl, by constructor <;> omega⟩
  · rintro ⟨l, hl, hr1, hr2⟩
    refine ⟨l, List.mem_range.mpr hl, ?_⟩
    rw [List.mem_map]
    refine ⟨a - bucketForLevelLeaf c l leaf * c.Z, List.mem_range.mpr (by omega), by omega⟩

theorem onPath_iff_mem (c : OramCfg) (leaf a : Nat) :
    onPath c leaf a ↔ a ∈ pathAddrs c leaf := by
  rw [mem_pathAddrs_iff]
  unfold onPath
  constructor
  · rintro ⟨l, hl, i, hi, rfl⟩
    exact ⟨l, hl, by constructor <;> omega⟩
  · rintro ⟨l, hl, hr1, hr2⟩
    exact ⟨l, hl, a - bucketForLevelLeaf c l leaf * c.Z, by omega, by omega⟩

theorem mem_levelsDesc (c : OramCfg) (l : Nat) : l ∈ levelsDesc c ↔ l < c.height := by
  simp [levelsDesc]

theorem levelsDesc_nodup (c : OramCfg) : (levelsDesc c).Nodup := by
  simp [levelsDesc]
  exact List.nodup_range _

/-- Inclusion at a level transfers bucket ranges between the path leaf
and the mapped leaf of the block. -/
theorem canInclude_range (c : OramCfg) (bleaf pleaf l a : Nat)
    (h : canInclude c bleaf pleaf l = true) :
    inBucketRange c pleaf l a ↔ inBucketRange c bleaf l a := by
  unfold canInclude at h
  rw [beq_iff_eq] at h
  unfold inBucketRange
  rw [h]

/-! ## ORAM invariant machinery: selection and bucket writes -/

theorem selectLoop_eq_take (p : Nat × Bytes → Bool) (Z : Nat) :
    ∀ (l : List (Nat × Bytes)) (s : Nat), s < Z →
      selectLoop p Z l s = (l.filter p).take (Z - s) := by
  intro l
  induction l with
  | nil => intro s _; simp [selectLoop]
  | cons e rest ih =>
    intro s hs
    by_cases hp : p e
    · rw [List.filter_cons_of_pos hp]
      simp only [selectLoop, if_pos hp]
      by_cases hZ : s + 1 = Z
      · rw [if_pos hZ]
        have h1 : Z - s = 1 := by omega
        rw [h1]
        simp
      · rw [if_neg hZ]
        rw [ih (s + 1) (by omega)]
        have h1 : Z - s = (Z - (s + 1)) + 1 := by omega
        rw [h1]
        simp
    · rw [List.filter_cons_of_neg hp]
      simp only [selectLoop, if_neg hp]
      exact ih s hs

theorem nodup_getElem_inj {l : List Nat} (h : l.Nodup) {i j : Nat} (hi : i < l.length)
    (hj : j < l.length) (he : l[i] = l[j]) : i = j := by
  by_contra hne
  rcases Nat.lt_or_ge i j with hlt | hge
  · exact (List.pairwise_iff_getElem.mp h) i j hi hj hlt he
  · have hlt : j < i := by omega
    exact (List.pairwise_iff_getElem.mp h) j i hj hi hlt he.symm

theorem writeBucket_out (stor : Nat → Option (Nat × Bytes)) (base Z : Nat)
    (ins : List (Nat × Bytes)) (a : Nat) (h : ¬ (base ≤ a ∧ a < base + Z)) :
    writeBucket stor base Z ins a = stor a := by
  unfold writeBucket
  rw [if_neg h]

theorem writeBucket_some_mem (stor : Nat → Option (Nat × Bytes)) (base Z : Nat)
    (ins : List (Nat × Bytes)) (a : Nat) (h : base ≤ a ∧ a < base + Z)
    (e : Nat × Bytes) (hc : writeBucket stor base Z ins a = some e) : e ∈ ins := by
  unfold writeBucket at hc
  rw [if_pos h] at hc
  by_cases hlt : a - base < ins.length
  · rw [List.getD_eq_getElem _ _ (by simpa using hlt)] at hc
    rw [List.getElem_map] at hc
    injection hc with hc
    rw [← hc]
    exact List.mem_reverse.mp (List.getElem_mem _)
  · rw [List.getD_eq_default _ _ (by simpa using hlt)] at hc
    exact absurd hc (by simp)

theorem writeBucket_mem_placed (stor : Nat → Option (Nat × Bytes)) (base Z : Nat)
    (ins : List (Nat × Bytes)) (hlen : ins.length ≤ Z) (e : Nat × Bytes) (he : e ∈ ins) :
    ∃ a, base ≤ a ∧ a < base + Z ∧ writeBucket stor base Z ins a = some e := by
  have he2 : e ∈ ins.reverse := List.mem_reverse.mpr he
  obtain ⟨j, hj, hje⟩ := List.mem_iff_getElem.mp he2
  refine ⟨base + j, by omega, by simp at hj; omega, ?_⟩
  unfold writeBucket
  rw [if_pos (by constructor <;> (simp at hj; omega))]
  rw [Nat.add_sub_cancel_left]
  rw [List.getD_eq_getElem _ _ (by simpa using hj)]
  rw [List.getElem_map, hje]

theorem writeBucket_key_unique (stor : Nat → Option (Nat × Bytes)) (base Z : Nat)
    (ins : List (Nat × Bytes)) (hnd : (stashKeys ins).Nodup) (a a2 : Nat)
    (h1 : base ≤ a ∧ a < base + Z) (h2 : base ≤ a2 ∧ a2 < base + Z)
    (k : Nat) (v v2 : Bytes)
    (hc1 : writeBucket stor base Z ins a = some (k, v))
    (hc2 : writeBucket stor base Z ins a2 = some (k, v2)) : a = a2 := by
  unfold writeBucket at hc1 hc2
  rw [if_pos h1] at hc1
  rw [if_pos h2] at hc2
  have hrevnd : (ins.reverse.map Prod.fst).Nodup := by
    rw [List.map_reverse]
    exact (List.nodup_reverse).mpr hnd
  have hj1 : a - base < ins.length := by
    by_contra hge
    rw [List.getD_eq_default _ _ (by simpa using hge)] at hc1
    exact absurd hc1 (by simp)
  have hj2 : a2 - base < ins.length := by
    by_contra hge
    rw [List.getD_eq_default _ _ (by simpa using hge)] at hc2
    exact absurd hc2 (by simp)
  rw [List.getD_eq_getElem _ _ (by simpa using hj1), List.getElem_map] at hc1
  rw [List.getD_eq_getElem _ _ (by simpa using hj2), List.getElem_map] at hc2
  injection hc1 with hc1
  injection hc2 with hc2
  have hb1 : a - base < (ins.reverse.map Prod.fst).length := by simpa using hj1
  have hb2 : a2 - base < (ins.reverse.map Prod.fst).length := by simpa using hj2
  have hk1 : (ins.reverse.map Prod.fst)[a - base] = k := by
    rw [List.getElem_map, hc1]
  have hk2 : (ins.reverse.map Prod.fst)[a2 - base] = k := by
    rw [List.getElem_map, hc2]
  have := nodup_getElem_inj hrevnd hb1 hb2 (hk1.trans hk2.symm)
  omega

theorem mem_eraseFold (ks : List Nat) (st : List (Nat × Bytes)) (e : Nat × Bytes) :
    e ∈ ks.foldl stashEraseKey st ↔ e ∈ st ∧ e.1 ∉ ks := by
  induction ks generalizing st with
  | nil => simp
  | cons k ks ih =>
    simp only [List.foldl_cons]
    rw [ih]
    unfold stashEraseKey
    rw [List.mem_filter]
    constructor
    · rintro ⟨⟨h1, h2⟩, h3⟩
      refine ⟨h1, ?_⟩
      simp only [List.mem_cons]
      rintro (h | h)
      · rw [h] at h2
        simp at h2
      · exact h3 h
    · rintro ⟨h1, h2⟩
      simp only [List.mem_cons] at h2
      push_neg at h2
      exact ⟨⟨h1, by simpa using h2.1⟩, h2.2⟩

theorem mem_stashKeys_iff (st : List (Nat × Bytes)) (k : Nat) :
    k ∈ stashKeys st ↔ ∃ v, (k, v) ∈ st := by
  unfold stashKeys
  rw [List.mem_map]
  constructor
  · rintro ⟨⟨k2, v⟩, hmem, rfl⟩
    exact ⟨v, hmem⟩
  · rintro ⟨v, hmem⟩
    exact ⟨(k, v), hmem, rfl⟩

/-! ## ORAM invariant machinery: the writePath loop -/

/-- Fold of the level loop of writePath from an accumulator, named to
state the loop lemma. -/
def writeLoopGo (c : OramCfg) (pm : Nat → Nat) (leaf : Nat) (Ls : List Nat)
    (acc : WriteAcc) : WriteAcc :=
  Ls.foldl (fun acc level => writeLevel c pm leaf acc level) acc

theorem writePathRun_eq_go (c : OramCfg) (pm : Nat → Nat) (leaf : Nat)
    (stor : Nat → Option (Nat × Bytes)) (stash : List (Nat × Bytes)) :
    writePathRun c pm leaf stor stash =
      ((writeLoopGo c pm leaf (levelsDesc c) ⟨stor, stash, []⟩).stor,
       (writeLoopGo c pm leaf (levelsDesc c) ⟨stor, stash, []⟩).dels.foldl
         stashEraseKey stash) := rfl

theorem writeLoop_spec (c : OramCfg) (pm : Nat → Nat) (leaf : Nat) (hZ : 1 ≤ c.Z) :
    ∀ (Ls : List Nat) (stor : Nat → Option (Nat × Bytes)) (cur : List (Nat × Bytes))
      (dels : List Nat),
      (∀ l ∈ Ls, l < c.height) → Ls.Nodup → (stashKeys cur).Nodup →
      (∀ e ∈ cur, ∀ a, (∃ v, stor a = some (e.1, v)) → ∃ l ∈ Ls, inBucketRange c leaf l a) →
      ∃ nd : List Nat,
        (writeLoopGo c pm leaf Ls ⟨stor, cur, dels⟩).dels = dels ++ nd ∧
        nd.Nodup ∧
        (∀ k ∈ nd, k ∈ stashKeys cur) ∧
        (∀ a, (∀ l ∈ Ls, ¬ inBucketRange c leaf l a) →
          (writeLoopGo c pm leaf Ls ⟨stor, cur, dels⟩).stor a = stor a) ∧
        (∀ a k v, (writeLoopGo c pm leaf Ls ⟨stor, cur, dels⟩).stor a = some (k, v) →
          (stor a = some (k, v) ∧ ∀ l ∈ Ls, ¬ inBucketRange c leaf l a) ∨
          ((k, v) ∈ cur ∧ k ∈ nd ∧
            ∃ l, l ∈ Ls ∧ inBucketRange c leaf l a ∧ canInclude c (pm k) leaf l = true)) ∧
        (∀ k ∈ nd, ∃ v a, (k, v) ∈ cur ∧
          (writeLoopGo c pm leaf Ls ⟨stor, cur, dels⟩).stor a = some (k, v) ∧
          ∃ l, l ∈ Ls ∧ inBucketRange c leaf l a ∧ canInclude c (pm k) leaf l = true) ∧
        (∀ a a2 k v v2, (writeLoopGo c pm leaf Ls ⟨stor, cur, dels⟩).stor a = some (k, v) →
          (writeLoopGo c pm leaf Ls ⟨stor, cur, dels⟩).stor a2 = some (k, v2) →
          (∃ l, l ∈ Ls ∧ inBucketRange c leaf l a) →
          (∃ l, l ∈ Ls ∧ inBucketRange c leaf l a2) → a = a2) := by
  intro Ls
  induction Ls with
  | nil =>
    intro stor cur dels _ _ _ _
    refine ⟨[], by simp [writeLoopGo], by simp, by simp, fun a _ => rfl, ?_, by simp, ?_⟩
    · intro a k v h
      exact Or.inl ⟨h, fun l hl => absurd hl (List.not_mem_nil l)⟩
    · rintro a a2 k v v2 _ _ ⟨l, hl, _⟩ _
      exact absurd hl (List.not_mem_nil l)
  | cons l Ls ih =>
    intro stor cur dels hLs hLnd hcurnd hslots
    have hlh : l < c.height := hLs l (List.mem_cons_self l Ls)
    have hlnotin : l ∉ Ls := (List.nodup_cons.mp hLnd).1
    have hLsnd : Ls.Nodup := (List.nodup_cons.mp hLnd).2
    set p : Nat × Bytes → Bool := fun e => canInclude c (pm e.1) leaf l with hp
    set base : Nat := bucketForLevelLeaf c l leaf * c.Z with hbase
    set ins : List (Nat × Bytes) := selectLoop p c.Z cur 0 with hins
    have hinstake : ins = (cur.filter p).take c.Z := by
      rw [hins, selectLoop_eq_take p c.Z cur 0 (by omega)]
      simp
    have hinsub : ins.Sublist cur := by
      rw [hinstake]
      exact (List.take_sublist _ _).trans (List.filter_sublist cur)
    have hinsnd : (stashKeys ins).Nodup :=
      List.Nodup.sublist (List.Sublist.map Prod.fst hinsub) hcurnd
    have hinsp : ∀ e ∈ ins, p e = true := by
      intro e he
      rw [hinstake] at he
      exact List.of_mem_filter (List.mem_of_mem_take he)
    have hinslen : ins.length ≤ c.Z := by
      rw [hinstake]
      exact (List.length_take_le _ _)
    have hinmem : ∀ e ∈ ins, e ∈ cur := fun e he => hinsub.mem he
    set stor1 : Nat → Option (Nat × Bytes) := writeBucket stor base c.Z ins with hstor1
    set cur1 : List (Nat × Bytes) := (ins.map Prod.fst).foldl stashEraseKey cur with hcur1
    have hstep : writeLevel c pm leaf ⟨stor, cur, dels⟩ l =
        ⟨stor1, cur1, dels ++ ins.map Prod.fst⟩ := rfl
    have hgo : writeLoopGo c pm leaf (l :: Ls) ⟨stor, cur, dels⟩ =
        writeLoopGo c pm leaf Ls ⟨stor1, cur1, dels ++ ins.map Prod.fst⟩ := by
      rw [writeLoopGo, List.foldl_cons, hstep]
      rfl
    have hcur1sub : cur1.Sublist cur := eraseFold_sublist _ cur
    have hcur1nd : (stashKeys cur1).Nodup :=
      List.Nodup.sublist (List.Sublist.map Prod.fst hcur1sub) hcurnd
    have hcur1mem : ∀ e, e ∈ cur1 ↔ e ∈ cur ∧ e.1 ∉ ins.map Prod.fst :=
      fun e => mem_eraseFold (ins.map Prod.fst) cur e
    have hrange_in : ∀ a, inBucketRange c leaf l a ↔ (base ≤ a ∧ a < base + c.Z) := by
      intro a
      rw [hbase]
      exact Iff.rfl
    have hslots1 : ∀ e ∈ cur1, ∀ a, (∃ v, stor1 a = some (e.1, v)) →
        ∃ l2 ∈ Ls, inBucketRange c leaf l2 a := by
      rintro e he a ⟨v, hv⟩
      obtain ⟨hecur, heins⟩ := (hcur1mem e).mp he
      by_cases hin : base ≤ a ∧ a < base + c.Z
      · have := writeBucket_some_mem stor base c.Z ins a hin (e.1, v) (by rw [← hstor1]; exact hv)
        exact absurd (List.mem_map_of_mem Prod.fst this) heins
      · rw [hstor1, writeBucket_out stor base c.Z ins a hin] at hv
        obtain ⟨l2, hl2, hr2⟩ := hslots e hecur a ⟨v, hv⟩
        rcases List.mem_cons.mp hl2 with rfl | hl2
        · exact absurd ((hrange_in a).mp hr2) hin
        · exact ⟨l2, hl2, hr2⟩
    obtain ⟨nd2, hdels2, hnd2nd, hnd2sub, huntouched2, hcontent2, hplaced2, hunique2⟩ :=
      ih stor1 cur1 (dels ++ ins.map Prod.fst)
        (fun l2 hl2 => hLs l2 (List.mem_cons_of_mem _ hl2)) hLsnd hcur1nd hslots1
    refine ⟨ins.map Prod.fst ++ nd2, ?_, ?_, ?_, ?_, ?_, ?_, ?_⟩
    · rw [hgo, hdels2, List.append_assoc]
    · rw [List.nodup_append]
      refine ⟨hinsnd, hnd2nd, ?_⟩
      intro k hk1 hk2
      have := hnd2sub k hk2
      rw [mem_stashKeys_iff] at this
      obtain ⟨v, hv⟩ := this
      exact absurd hk1 ((hcur1mem (k, v)).mp hv).2
    · intro k hk
      rcases List.mem_append.mp hk with hk | hk
      · rw [mem_stashKeys_iff]
        rw [List.mem_map] at hk
        obtain ⟨e, he, rfl⟩ := hk
        exact ⟨e.2, hinmem e he⟩
      · have := hnd2sub k hk
        rw [mem_stashKeys_iff] at this ⊢
        obtain ⟨v, hv⟩ := this
        exact ⟨v, ((hcur1mem (k, v)).mp hv).1⟩
    · intro a ha
      rw [hgo, huntouched2 a (fun l2 hl2 => ha l2 (List.mem_cons_of_mem _ hl2))]
      rw [hstor1]
      exact writeBucket_out stor base c.Z ins a
        (fun hin => ha l (List.mem_cons_self l Ls) ((hrange_in a).mpr hin))
    · intro a k v hs
      rw [hgo] at hs
      rcases hcontent2 a k v hs with ⟨hval, hnor⟩ | ⟨hmem, hnd, l2, hl2, hr2, hcan⟩
      · by_cases hin : base ≤ a ∧ a < base + c.Z
        · have hmem := writeBucket_some_mem stor base c.Z ins a hin (k, v)
            (by rw [← hstor1]; exact hval)
          refine Or.inr ⟨hinmem _ hmem, ?_, l, List.mem_cons_self l Ls,
            (hrange_in a).mpr hin, ?_⟩
          · exact List.mem_append.mpr (Or.inl (List.mem_map_of_mem Prod.fst hmem))
          · exact hinsp (k, v) hmem
        · rw [hstor1, writeBucket_out stor base c.Z ins a hin] at hval
          refine Or.inl ⟨hval, ?_⟩
          intro l2 hl2
          rcases List.mem_cons.mp hl2 with rfl | hl2
          · intro hr
            exact hin ((hrange_in a).mp hr)
          · exact hnor l2 hl2
      · refine Or.inr ⟨((hcur1mem (k, v)).mp hmem).1,
          List.mem_append.mpr (Or.inr hnd), l2, List.mem_cons_of_mem _ hl2, hr2, hcan⟩
    · intro k hk
      rcases List.mem_append.mp hk with hk | hk
      · rw [List.mem_map] at hk
        obtain ⟨e, he, rfl⟩ := hk
        obtain ⟨a, ha1, ha2, ha3⟩ :=
          writeBucket_mem_placed stor base c.Z ins hinslen e he
        refine ⟨e.2, a, hinmem e he, ?_, l, List.mem_cons_self l Ls,
          (hrange_in a).mpr ⟨ha1, ha2⟩, hinsp e he⟩
        rw [hgo, huntouched2 a ?hfresh]
        · rw [hstor1]
          rw [show ((e.1, e.2) : Nat × Bytes) = e from rfl]
          exact ha3
        case hfresh =>
          intro l2 hl2 hr2
          have := inBucketRange_level_inj c leaf l2 l a (hLs l2 (List.mem_cons_of_mem _ hl2))
            hlh hr2 ((hrange_in a).mpr ⟨ha1, ha2⟩)
          subst this
          exact hlnotin hl2
      · obtain ⟨v, a, hmem, hsv, l2, hl2, hr2, hcan⟩ := hplaced2 k hk
        refine ⟨v, a, ((hcur1mem (k, v)).mp hmem).1, by rw [hgo]; exact hsv,
          l2, List.mem_cons_of_mem _ hl2, hr2, hcan⟩
    · rintro a a2 k v v2 hs1 hs2 ⟨l1, hl1, hr1⟩ ⟨l2, hl2, hr2⟩
      rw [hgo] at hs1 hs2
      rcases hcontent2 a k v hs1 with ⟨hval1, hnor1⟩ | ⟨hmem1, hnd1, l1b, hl1b, hr1b, _⟩
      · have hinr1 : base ≤ a ∧ a < base + c.Z := by
          rcases List.mem_cons.mp hl1 with rfl | hl1in
          · exact (hrange_in a).mp hr1
          · exact absurd hr1 (hnor1 l1 hl1in)
        have hm1 := writeBucket_some_mem stor base c.Z ins a hinr1 (k, v)
          (by rw [← hstor1]; exact hval1)
        rcases hcontent2 a2 k v2 hs2 with ⟨hval2, hnor2⟩ | ⟨hmem2, hnd2x, l2b, hl2b, hr2b, _⟩
        · have hinr2 : base ≤ a2 ∧ a2 < base + c.Z := by
            rcases List.mem_cons.mp hl2 with rfl | hl2in
            · exact (hrange_in a2).mp hr2
            · exact absurd hr2 (hnor2 l2 hl2in)
          exact writeBucket_key_unique stor base c.Z ins hinsnd a a2 hinr1 hinr2 k v v2
            (by rw [← hstor1]; exact hval1) (by rw [← hstor1]; exact hval2)
        · exfalso
          have hk1 : k ∈ ins.map Prod.fst := List.mem_map_of_mem Prod.fst hm1
          exact ((hcur1mem (k, v2)).mp hmem2).2 hk1
      · rcases hcontent2 a2 k v2 hs2 with ⟨hval2, hnor2⟩ | ⟨hmem2, hnd2x, l2b, hl2b, hr2b, _⟩
        · exfalso
          have hinr2 : base ≤ a2 ∧ a2 < base + c.Z := by
            rcases List.mem_cons.mp hl2 with rfl | hl2in
            · exact (hrange_in a2).mp hr2
            · exact absurd hr2 (hnor2 l2 hl2in)
          have hm2 := writeBucket_some_mem stor base c.Z ins a2 hinr2 (k, v2)
            (by rw [← hstor1]; exact hval2)
          have hk2 : k ∈ ins.map Prod.fst := List.mem_map_of_mem Prod.fst hm2
          exact ((hcur1mem (k, v)).mp hmem1).2 hk2
        · exact hunique2 a a2 k v v2 hs1 hs2 ⟨l1b, hl1b, hr1b⟩ ⟨l2b, hl2b, hr2b⟩

/-! ## ORAM invariant and access soundness -/

/-- Pointwise update of a logical contents map. -/
def updateF (val : Nat → Option Bytes) (k : Nat) (v : Option Bytes) : Nat → Option Bytes :=
  fun x => if x = k then v else val x

/-- Invariant of the ORAM state against the map of logical contents
(val k is the last payload put for id k, none when k was never put):
stash keys are unique, every stash or slot copy carries the latest
value, every slot copy of a block lies on the path of its currently
mapped leaf, a block has at most one slot copy and is never both in a
slot and in the stash, and every written block has a copy. -/
structure OramInv (c : OramCfg) (s : OramState) (val : Nat → Option Bytes) : Prop where
  nodup : (stashKeys s.stash).Nodup
  stashVal : ∀ k v, stashGet s.stash k = some v → val k = some v
  slotVal : ∀ a k v, s.storage a = some (k, v) → val k = some v
  slotPath : ∀ a k v, s.storage a = some (k, v) → onPath c (s.posMap k) a
  slotUnique : ∀ a a2 k v v2, s.storage a = some (k, v) → s.storage a2 = some (k, v2) →
    a = a2
  notBoth : ∀ a k v, s.storage a = some (k, v) → stashGet s.stash k = none
  present : ∀ k v, val k = some v →
    stashGet s.stash k = some v ∨ ∃ a, s.storage a = some (k, v)

theorem access_some (c : OramCfg) (s : OramState) (read : Bool) (b : Nat) (data : Bytes)
    (newLeaf : Nat) (r0 : Bytes)
    (h : stashGet (if read then readFold s.storage (pathAddrs c (s.posMap b)) s.stash
          else stashAdd (readFold s.storage (pathAddrs c (s.posMap b)) s.stash) b data) b
        = some r0) :
    access c s read b data newLeaf =
      some (r0,
        { storage := (writePathRun c (fun x => if x = b then newLeaf else s.posMap x)
            (s.posMap b) s.storage
            (if read then readFold s.storage (pathAddrs c (s.posMap b)) s.stash
             else stashAdd (readFold s.storage (pathAddrs c (s.posMap b)) s.stash) b data)).1,
          posMap := fun x => if x = b then newLeaf else s.posMap x,
          stash := (writePathRun c (fun x => if x = b then newLeaf else s.posMap x)
            (s.posMap b) s.storage
            (if read then readFold s.storage (pathAddrs c (s.posMap b)) s.stash
             else stashAdd (readFold s.storage (pathAddrs c (s.posMap b)) s.stash) b data)).2 })
      := by
  unfold access
  simp only [h]

theorem readPath_val (c : OramCfg) (s : OramState) (val : Nat → Option Bytes)
    (hinv : OramInv c s val) (leaf : Nat) (k : Nat) (v : Bytes)
    (h : stashGet (readFold s.storage (pathAddrs c leaf) s.stash) k = some v) :
    val k = some v := by
  rcases readFold_origin _ _ _ _ _ h with h1 | ⟨a, _, ha⟩
  · exact hinv.stashVal k v h1
  · exact hinv.slotVal a k v ha

theorem readPath_keep (c : OramCfg) (s : OramState) (val : Nat → Option Bytes)
    (hinv : OramInv c s val) (leaf : Nat) (k : Nat) (v : Bytes)
    (h : stashGet s.stash k = some v) :
    stashGet (readFold s.storage (pathAddrs c leaf) s.stash) k = some v := by
  apply readFold_keep _ _ _ _ _ h
  intro a _ w hw
  rw [hinv.notBoth a k w hw] at h
  exact absurd h (by simp)

theorem readPath_found_slot (c : OramCfg) (s : OramState) (val : Nat → Option Bytes)
    (hinv : OramInv c s val) (leaf : Nat) (k : Nat) (v : Bytes) (a : Nat)
    (ha : s.storage a = some (k, v)) (hmem : a ∈ pathAddrs c leaf) :
    stashGet (readFold s.storage (pathAddrs c leaf) s.stash) k = some v := by
  apply readFold_found _ _ _ _ _ a hmem ha
  intro a2 _ w hw
  have := hinv.slotUnique a2 a k w v hw ha
  subst this
  rw [ha] at hw
  injection hw with hw
  injection hw with _ hw
  exact hw.symm

theorem readPath_found_mapped (c : OramCfg) (s : OramState) (val : Nat → Option Bytes)
    (hinv : OramInv c s val) (b : Nat) (v : Bytes) (hv : val b = some v) :
    stashGet (readFold s.storage (pathAddrs c (s.posMap b)) s.stash) b = some v := by
  rcases hinv.present b v hv with h1 | ⟨a, ha⟩
  · exact readPath_keep c s val hinv _ b v h1
  · exact readPath_found_slot c s val hinv _ b v a ha
      ((onPath_iff_mem c (s.posMap b) a).mp (hinv.slotPath a b v ha))

theorem readPath_free (c : OramCfg) (s : OramState) (val : Nat → Option Bytes)
    (hinv : OramInv c s val) (leaf : Nat) (k : Nat) (v : Bytes)
    (h : stashGet (readFold s.storage (pathAddrs c leaf) s.stash) k = some v)
    (a : Nat) (w : Bytes) (hw : s.storage a = some (k, w)) : a ∈ pathAddrs c leaf := by
  rcases readFold_origin _ _ _ _ _ h with h1 | ⟨a0, hmem0, ha0⟩
  · rw [hinv.notBoth a k w hw] at h1
    exact absurd h1 (by simp)
  · have := hinv.slotUnique a a0 k w v hw ha0
    subst this
    exact hmem0

theorem writeBack_inv (c : OramCfg) (hZ : 1 ≤ c.Z) (s : OramState)
    (val val2 : Nat → Option Bytes) (b newLeaf : Nat)
    (stash2 : List (Nat × Bytes))
    (hnodup2 : (stashKeys stash2).Nodup)
    (hval2 : ∀ k v, stashGet stash2 k = some v → val2 k = some v)
    (hfree : ∀ k v, stashGet stash2 k = some v →
      ∀ a w, s.storage a = some (k, w) → a ∈ pathAddrs c (s.posMap b))
    (hpresent2 : ∀ k v, val2 k = some v → stashGet stash2 k = some v ∨
      (∃ a, s.storage a = some (k, v) ∧ a ∉ pathAddrs c (s.posMap b)))
    (hval2ne : ∀ k, k ≠ b → val2 k = val k)
    (hbslot : ∀ a w, s.storage a = some (b, w) → a ∈ pathAddrs c (s.posMap b))
    (hslotVal : ∀ a k v, s.storage a = some (k, v) → val k = some v)
    (hslotPath : ∀ a k v, s.storage a = some (k, v) → onPath c (s.posMap k) a)
    (hslotUnique : ∀ a a2 k v v2, s.storage a = some (k, v) → s.storage a2 = some (k, v2) →
      a = a2) :
    OramInv c
      { storage := (writePathRun c (fun x => if x = b then newLeaf else s.posMap x)
          (s.posMap b) s.storage stash2).1,
        posMap := fun x => if x = b then newLeaf else s.posMap x,
        stash := (writePathRun c (fun x => if x = b then newLeaf else s.posMap x)
          (s.posMap b) s.storage stash2).2 } val2 := by
  classical
  set pm2 : Nat → Nat := fun x => if x = b then newLeaf else s.posMap x with hpm2
  have hLs1 : ∀ l ∈ levelsDesc c, l < c.height := fun l hl => (mem_levelsDesc c l).mp hl
  have hslots : ∀ e ∈ stash2, ∀ a, (∃ v, s.storage a = some (e.1, v)) →
      ∃ l ∈ levelsDesc c, inBucketRange c (s.posMap b) l a := by
    rintro e he a ⟨v, hv⟩
    have hg : stashGet stash2 e.1 = some e.2 :=
      stashGet_of_mem_nodup _ _ _ hnodup2 (by simpa using he)
    have hmem := hfree e.1 e.2 hg a v hv
    rw [mem_pathAddrs_iff] at hmem
    obtain ⟨l, hl, hr⟩ := hmem
    exact ⟨l, (mem_levelsDesc c l).mpr hl, hr⟩
  obtain ⟨nd, hdels, hndnd, hndsub, huntouched, hcontent, hplaced, hunique⟩ :=
    writeLoop_spec c pm2 (s.posMap b) hZ (levelsDesc c) s.storage stash2 [] hLs1
      (levelsDesc_nodup c) hnodup2 hslots
  have hW := writePathRun_eq_go c pm2 (s.posMap b) s.storage stash2
  have h1 : (writePathRun c pm2 (s.posMap b) s.storage stash2).1 =
      (writeLoopGo c pm2 (s.posMap b) (levelsDesc c) ⟨s.storage, stash2, []⟩).stor := by
    rw [hW]
  have h2 : (writePathRun c pm2 (s.posMap b) s.storage stash2).2 =
      nd.foldl stashEraseKey stash2 := by
    rw [hW]
    simp only [hdels, List.nil_append]
  rw [h1, h2]
  set G := writeLoopGo c pm2 (s.posMap b) (levelsDesc c) ⟨s.storage, stash2, []⟩ with hG
  have hstash3 : ∀ k, stashGet (nd.foldl stashEraseKey stash2) k =
      if k ∈ nd then none else stashGet stash2 k := fun k => stashGet_eraseFold nd stash2 k
  have hnotL : ∀ a, (∀ l ∈ levelsDesc c, ¬ inBucketRange c (s.posMap b) l a) ↔
      a ∉ pathAddrs c (s.posMap b) := by
    intro a
    rw [mem_pathAddrs_iff]
    constructor
    · rintro h ⟨l, hl, hr⟩
      exact h l ((mem_levelsDesc c l).mpr hl) hr
    · intro h l hl hr
      exact h ⟨l, (mem_levelsDesc c l).mp hl, hr⟩
  have honpath : ∀ k a l, l ∈ levelsDesc c → inBucketRange c (s.posMap b) l a →
      canInclude c (pm2 k) (s.posMap b) l = true → onPath c (pm2 k) a := by
    intro k a l hl hr hcan
    rw [onPath_iff_mem, mem_pathAddrs_iff]
    exact ⟨l, (mem_levelsDesc c l).mp hl,
      (canInclude_range c (pm2 k) (s.posMap b) l a hcan).mp hr⟩
  have hleft_ne_b : ∀ a k v, s.storage a = some (k, v) →
      (∀ l ∈ levelsDesc c, ¬ inBucketRange c (s.posMap b) l a) → k ≠ b := by
    intro a k v hv hno hkb
    subst hkb
    exact (hnotL a).mp hno (hbslot a v hv)
  have hstash2_of_mem : ∀ k v, (k, v) ∈ stash2 → stashGet stash2 k = some v :=
    fun k v h => stashGet_of_mem_nodup _ _ _ hnodup2 h
  constructor
  · -- nodup of the final stash
    show (stashKeys (nd.foldl stashEraseKey stash2)).Nodup
    exact List.Nodup.sublist (List.Sublist.map Prod.fst (eraseFold_sublist nd stash2))
      hnodup2
  · -- stash values are current
    intro k v h
    rw [hstash3 k] at h
    by_cases hknd : k ∈ nd
    · rw [if_pos hknd] at h
      exact absurd h (by simp)
    · rw [if_neg hknd] at h
      exact hval2 k v h
  · -- slot values are current
    intro a k v h
    rcases hcontent a k v h with ⟨hval, hno⟩ | ⟨hmem, _, _⟩
    · have hkb := hleft_ne_b a k v hval hno
      rw [hval2ne k hkb]
      exact hslotVal a k v hval
    · exact hval2 k v (hstash2_of_mem k v hmem)
  · -- slot copies lie on the mapped path
    intro a k v h
    rcases hcontent a k v h with ⟨hval, hno⟩ | ⟨_, _, l, hl, hr, hcan⟩
    · have hkb := hleft_ne_b a k v hval hno
      show onPath c (pm2 k) a
      have : pm2 k = s.posMap k := by
        rw [hpm2]
        simp [hkb]
      rw [this]
      exact hslotPath a k v hval
    · exact honpath k a l hl hr hcan
  · -- at most one slot per block
    intro a a2 k v v2 hv hv2
    rcases hcontent a k v hv with ⟨hval1, hno1⟩ | ⟨hmem1, hnd1, l1, hl1, hr1, _⟩
    · rcases hcontent a2 k v2 hv2 with ⟨hval2s, hno2⟩ | ⟨hmem2, hnd2, l2, hl2, hr2, _⟩
      · exact hslotUnique a a2 k v v2 hval1 hval2s
      · exfalso
        have hg := hstash2_of_mem k v2 hmem2
        exact (hnotL a).mp hno1 (hfree k v2 hg a v hval1)
    · rcases hcontent a2 k v2 hv2 with ⟨hval2s, hno2⟩ | ⟨hmem2, hnd2, l2, hl2, hr2, _⟩
      · exfalso
        have hg := hstash2_of_mem k v hmem1
        exact (hnotL a2).mp hno2 (hfree k v hg a2 v2 hval2s)
      · exact hunique a a2 k v v2 hv hv2 ⟨l1, hl1, hr1⟩ ⟨l2, hl2, hr2⟩
  · -- a slot copy is not in the stash
    intro a k v h
    rw [hstash3 k]
    rcases hcontent a k v h with ⟨hval, hno⟩ | ⟨_, hknd, _, _, _, _⟩
    · by_cases hknd : k ∈ nd
      · rw [if_pos hknd]
      · rw [if_neg hknd]
        cases hg : stashGet stash2 k with
        | none => rfl
        | some v2 =>
          exfalso
          exact (hnotL a).mp hno (hfree k v2 hg a v hval)
    · rw [if_pos hknd]
  · -- every written block has a copy
    intro k v hv
    rcases hpresent2 k v hv with hg | ⟨a, ha, hnotin⟩
    · by_cases hknd : k ∈ nd
      · obtain ⟨v2, a, hmem, hstor, l, hl, hr, hcan⟩ := hplaced k hknd
        have : v2 = v := by
          have := hstash2_of_mem k v2 hmem
          rw [this] at hg
          injection hg
        subst this
        exact Or.inr ⟨a, hstor⟩
      · refine Or.inl ?_
        rw [hstash3 k, if_neg hknd]
        exact hg
    · refine Or.inr ⟨a, ?_⟩
      show G.stor a = some (k, v)
      rw [huntouched a ((hnotL a).mpr hnotin)]
      exact ha

theorem access_sound (c : OramCfg) (hZ : 1 ≤ c.Z) (s : OramState) (val : Nat → Option Bytes)
    (hinv : OramInv c s val) (read : Bool) (b : Nat) (data : Bytes) (newLeaf : Nat)
    (hread : read = true → ∃ v, val b = some v) :
    ∃ r s2, access c s read b data newLeaf = some (r, s2) ∧
      OramInv c s2 (if read then val else updateF val b (some data)) ∧
      (read = true → val b = some r) := by
  classical
  have hbslot : ∀ a w, s.storage a = some (b, w) → a ∈ pathAddrs c (s.posMap b) :=
    fun a w hw => (onPath_iff_mem c (s.posMap b) a).mp (hinv.slotPath a b w hw)
  cases read with
  | true =>
    obtain ⟨v0, hv0⟩ := hread rfl
    have hget : stashGet (readFold s.storage (pathAddrs c (s.posMap b)) s.stash) b
        = some v0 := readPath_found_mapped c s val hinv b v0 hv0
    have hget2 : stashGet
        (if (true : Bool) = true then readFold s.storage (pathAddrs c (s.posMap b)) s.stash
         else stashAdd (readFold s.storage (pathAddrs c (s.posMap b)) s.stash) b data) b
        = some v0 := by simpa using hget
    have haccess := access_some c s true b data newLeaf v0 hget2
    refine ⟨v0, _, haccess, ?_, fun _ => hv0⟩
    have hsimp : (if (true : Bool) = true
          then readFold s.storage (pathAddrs c (s.posMap b)) s.stash
          else stashAdd (readFold s.storage (pathAddrs c (s.posMap b)) s.stash) b data)
        = readFold s.storage (pathAddrs c (s.posMap b)) s.stash := by simp
    rw [hsimp, if_pos rfl]
    apply writeBack_inv c hZ s val val b newLeaf
      (readFold s.storage (pathAddrs c (s.posMap b)) s.stash)
      (readFold_nodup _ _ _ hinv.nodup)
      (fun k v h => readPath_val c s val hinv (s.posMap b) k v h)
      (fun k v h a w hw => readPath_free c s val hinv (s.posMap b) k v h a w hw)
      ?_ (fun k _ => rfl) hbslot hinv.slotVal hinv.slotPath hinv.slotUnique
    intro k v hv
    rcases hinv.present k v hv with h1 | ⟨a, ha⟩
    · exact Or.inl (readPath_keep c s val hinv (s.posMap b) k v h1)
    · by_cases hmem : a ∈ pathAddrs c (s.posMap b)
      · exact Or.inl (readPath_found_slot c s val hinv (s.posMap b) k v a ha hmem)
      · exact Or.inr ⟨a, ha, hmem⟩
  | false =>
    have hget : stashGet
        (stashAdd (readFold s.storage (pathAddrs c (s.posMap b)) s.stash) b data) b
        = some data := stashGet_stashAdd_self _ b data
    have hget2 : stashGet
        (if (false : Bool) = true then readFold s.storage (pathAddrs c (s.posMap b)) s.stash
         else stashAdd (readFold s.storage (pathAddrs c (s.posMap b)) s.stash) b data) b
        = some data := by simpa using hget
    have haccess := access_some c s false b data newLeaf data hget2
    refine ⟨data, _, haccess, ?_, fun h => absurd h (by simp)⟩
    have hsimp : (if (false : Bool) = true
          then readFold s.storage (pathAddrs c (s.posMap b)) s.stash
          else stashAdd (readFold s.storage (pathAddrs c (s.posMap b)) s.stash) b data)
        = stashAdd (readFold s.storage (pathAddrs c (s.posMap b)) s.stash) b data := by simp
    rw [hsimp, if_neg (by simp)]
    apply writeBack_inv c hZ s val (updateF val b (some data)) b newLeaf
      (stashAdd (readFold s.storage (pathAddrs c (s.posMap b)) s.stash) b data)
      (stashKeys_stashAdd_nodup _ b data (readFold_nodup _ _ _ hinv.nodup))
      ?hval2 ?hfree ?hpresent2 ?hval2ne hbslot hinv.slotVal hinv.slotPath hinv.slotUnique
    case hval2 =>
      intro k v h
      by_cases hk : k = b
      · subst hk
        rw [stashGet_stashAdd_self] at h
        injection h with h
        subst h
        simp [updateF]
      · rw [stashGet_stashAdd_ne _ _ _ _ (fun h2 => hk h2.symm)] at h
        have := readPath_val c s val hinv (s.posMap b) k v h
        simpa [updateF, hk] using this
    case hfree =>
      intro k v h a w hw
      by_cases hk : k = b
      · subst hk
        exact hbslot a w hw
      · rw [stashGet_stashAdd_ne _ _ _ _ (fun h2 => hk h2.symm)] at h
        exact readPath_free c s val hinv (s.posMap b) k v h a w hw
    case hpresent2 =>
      intro k v hv
      by_cases hk : k = b
      · subst hk
        have hvd : v = data := by
          simp only [updateF, if_pos rfl] at hv
          injection hv with hv
          exact hv.symm
        subst hvd
        exact Or.inl (stashGet_stashAdd_self _ _ _)
      · have hvk : val k = some v := by simpa [updateF, hk] using hv
        rcases hinv.present k v hvk with h1 | ⟨a, ha⟩
        · refine Or.inl ?_
          rw [stashGet_stashAdd_ne _ _ _ _ (fun h2 => hk h2.symm)]
          exact readPath_keep c s val hinv (s.posMap b) k v h1
        · by_cases hmem : a ∈ pathAddrs c (s.posMap b)
          · refine Or.inl ?_
            rw [stashGet_stashAdd_ne _ _ _ _ (fun h2 => hk h2.symm)]
            exact readPath_found_slot c s val hinv (s.posMap b) k v a ha hmem
          · exact Or.inr ⟨a, ha, hmem⟩
    case hval2ne =>
      intro k hk
      simp [updateF, hk]

theorem oramInit_inv (c : OramCfg) (f : Nat → Nat) :
    OramInv c (oramInit c f) (fun _ => none) := by
  constructor
  · simp [oramInit, stashKeys]
  · intro k v h
    simp [oramInit, stashGet] at h
  · intro a k v h
    simp [oramInit] at h
  · intro a k v h
    simp [oramInit] at h
  · intro a a2 k v v2 h
    simp [oramInit] at h
  · intro a k v h
    simp [oramInit] at h
  · intro k v h
    simp at h

/-- Validity of an operation sequence against the evolving logical
contents: reads target ids that were already written, and every id
satisfies the predicate P (used to keep intervening accesses away from
the block under scrutiny). -/
inductive ValidOps (P : Nat → Prop) : (Nat → Option Bytes) → List Op → Prop where
  | nil (val : Nat → Option Bytes) : ValidOps P val []
  | write (val : Nat → Option Bytes) (op : Op) (ops : List Op) (h1 : op.read = false)
      (h2 : P op.id) (h3 : ValidOps P (updateF val op.id (some op.data)) ops) :
      ValidOps P val (op :: ops)
  | read (val : Nat → Option Bytes) (op : Op) (ops : List Op) (v : Bytes)
      (h1 : op.read = true) (h2 : P op.id) (h4 : val op.id = some v)
      (h3 : ValidOps P val ops) : ValidOps P val (op :: ops)

/-- Logical contents after a sequence of operations. -/
def valAfter : (Nat → Option Bytes) → List Op → (Nat → Option Bytes)
  | val, [] => val
  | val, op :: ops => valAfter (if op.read then val else updateF val op.id (some op.data)) ops

theorem valAfter_ne (b : Nat) :
    ∀ (ops : List Op) (val : Nat → Option Bytes), (∀ op ∈ ops, op.id ≠ b) →
      valAfter val ops b = val b := by
  intro ops
  induction ops with
  | nil => intro val _; rfl
  | cons op ops ih =>
    intro val hne
    simp only [valAfter]
    rw [ih _ (fun op2 h2 => hne op2 (List.mem_cons_of_mem _ h2))]
    cases hr : op.read
    · simp only [Bool.false_eq_true, if_false]
      unfold updateF
      rw [if_neg (fun h => hne op (List.mem_cons_self op ops) h.symm)]
    · simp

theorem validOps_ids (P : Nat → Prop) :
    ∀ (ops : List Op) (val : Nat → Option Bytes), ValidOps P val ops →
      ∀ op ∈ ops, P op.id := by
  intro ops
  induction ops with
  | nil => intro val _ op h; simp at h
  | cons op2 ops ih =>
    intro val hv op hmem
    rcases List.mem_cons.mp hmem with rfl | hmem2
    · cases hv with
      | write _ _ _ _ h2 _ => exact h2
      | read _ _ _ _ _ h2 _ _ => exact h2
    · cases hv with
      | write _ _ _ _ _ h3 => exact ih _ h3 op hmem2
      | read _ _ _ _ _ _ _ h3 => exact ih _ h3 op hmem2

theorem runOps_sound (c : OramCfg) (hZ : 1 ≤ c.Z) (P : Nat → Prop) :
    ∀ (ops : List Op) (val : Nat → Option Bytes) (s : OramState),
      ValidOps P val ops → OramInv c s val →
      ∃ s2, runOps c ops s = some s2 ∧ OramInv c s2 (valAfter val ops) := by
  intro ops
  induction ops with
  | nil =>
    intro val s _ hinv
    exact ⟨s, rfl, hinv⟩
  | cons op ops ih =>
    intro val s hv hinv
    cases hv with
    | write _ _ _ h1 h2 h3 =>
      obtain ⟨r, s2, hacc, hinv2, _⟩ :=
        access_sound c hZ s val hinv op.read op.id op.data op.leaf
          (by intro hc; rw [h1] at hc; exact absurd hc (by simp))
      have hinv2b : OramInv c s2 (updateF val op.id (some op.data)) := by
        rw [h1] at hinv2
        simpa using hinv2
      obtain ⟨s3, hrun, hinv3⟩ := ih _ s2 h3 hinv2b
      refine ⟨s3, ?_, ?_⟩
      · show (match access c s op.read op.id op.data op.leaf with
          | none => none
          | some (_, s4) => runOps c ops s4) = some s3
        rw [hacc]
        exact hrun
      · have hva : valAfter val (op :: ops) =
            valAfter (updateF val op.id (some op.data)) ops := by
          simp [valAfter, h1]
        rw [hva]
        exact hinv3
    | read _ _ _ v h1 h2 h4 h3 =>
      obtain ⟨r, s2, hacc, hinv2, _⟩ :=
        access_sound c hZ s val hinv op.read op.id op.data op.leaf
          (fun _ => ⟨v, h4⟩)
      have hinv2b : OramInv c s2 val := by
        rw [h1] at hinv2
        simpa using hinv2
      obtain ⟨s3, hrun, hinv3⟩ := ih _ s2 h3 hinv2b
      refine ⟨s3, ?_, ?_⟩
      · show (match access c s op.read op.id op.data op.leaf with
          | none => none
          | some (_, s4) => runOps c ops s4) = some s3
        rw [hacc]
        exact hrun
      · have hva : valAfter val (op :: ops) = valAfter val ops := by
          simp [valAfter, h1]
        rw [hva]
        exact hinv3

/-- C1: functional correctness of put and get.  From any state
satisfying the invariant (in particular any state reachable from
initialization), after put of payload d for logical block b (remapped
to any fresh leaf), followed by any number of valid accesses to other
block ids (puts of anything, gets of ids previously written), a get of
b succeeds and returns exactly d.  The bucket size must be at least 1;
ids and payloads are otherwise unconstrained, which covers every b
below 2 to the height times Z and every payload of the block size. -/
theorem oram_put_then_get (c : OramCfg) (hZ : 1 ≤ c.Z) (s : OramState)
    (val : Nat → Option Bytes) (hinv : OramInv c s val) (b : Nat) (hb : b < numBlocks c)
    (d : Bytes) (lput lget : Nat) (ops : List Op)
    (hops : ValidOps (fun i => i ≠ b) (updateF val b (some d)) ops) :
    ∃ s1 s2 s3, oramPut c s b d lput = some s1 ∧ runOps c ops s1 = some s2 ∧
      oramGet c s2 b lget = some (d, s3) := by
  obtain ⟨r0, s1, hacc, hinv1, _⟩ :=
    access_sound c hZ s val hinv false b d lput (by intro h; exact absurd h (by simp))
  have hinv1b : OramInv c s1 (updateF val b (some d)) := by simpa using hinv1
  obtain ⟨s2, hrun, hinv2⟩ := runOps_sound c hZ (fun i => i ≠ b) ops _ s1 hops hinv1b
  have hvb : valAfter (updateF val b (some d)) ops b = some d := by
    rw [valAfter_ne b ops _ (validOps_ids _ ops _ hops)]
    simp [updateF]
  obtain ⟨r, s3, hacc2, hinv3, hres⟩ :=
    access_sound c hZ s2 (valAfter (updateF val b (some d)) ops) hinv2 true b [] lget
      (fun _ => ⟨d, hvb⟩)
  have hrd : d = r := by
    have h5 := hres rfl
    rw [hvb] at h5
    injection h5
  refine ⟨s1, s2, s3, ?_, hrun, ?_⟩
  · unfold oramPut
    rw [hacc]
    rfl
  · unfold oramGet
    rw [hacc2, hrd]

theorem oram_put_then_get_witness :
    1 ≤ cfgH1Z1.Z ∧ (0 : Nat) < numBlocks cfgH1Z1 ∧
    (∃ s1 s2 s3, oramPut cfgH1Z1 (oramInit cfgH1Z1 (fun _ => 0)) 0 [7] 0 = some s1 ∧
      runOps cfgH1Z1 [⟨false, 1, [9], 0⟩] s1 = some s2 ∧
      oramGet cfgH1Z1 s2 0 0 = some ([7], s3)) :=
  ⟨by decide, by decide,
   oram_put_then_get cfgH1Z1 (by decide) (oramInit cfgH1Z1 (fun _ => 0)) (fun _ => none)
     (oramInit_inv cfgH1Z1 (fun _ => 0)) 0 (by decide) [7] 0 0 [⟨false, 1, [9], 0⟩]
     (ValidOps.write _ _ _ rfl (by decide) (ValidOps.nil _))⟩

/-- C3 amended: after any sequence of valid accesses from
initialization, every written logical block either sits in the stash or
resides, with its latest payload, in some bucket on the path from the
root to the leaf currently assigned by the position map.  The claim as
stated (always on the path) fails because writePath places at most Z
stash entries per level and leaves the rest in the stash; see the
counterexample. -/
theorem oram_written_on_path_or_stash (c : OramCfg) (hZ : 1 ≤ c.Z) (f : Nat → Nat)
    (ops : List Op) (hops : ValidOps (fun _ => True) (fun _ => none) ops) :
    ∃ s2, runOps c ops (oramInit c f) = some s2 ∧
      ∀ b v, valAfter (fun _ => none) ops b = some v →
        stashGet s2.stash b = some v ∨
          ∃ a, onPath c (s2.posMap b) a ∧ s2.storage a = some (b, v) := by
  obtain ⟨s2, hrun, hinv⟩ :=
    runOps_sound c hZ (fun _ => True) ops _ (oramInit c f) hops (oramInit_inv c f)
  refine ⟨s2, hrun, ?_⟩
  intro b v hv
  rcases hinv.present b v hv with h | ⟨a, ha⟩
  · exact Or.inl h
  · exact Or.inr ⟨a, hinv.slotPath a b v ha, ha⟩

theorem oram_written_on_path_or_stash_witness :
    1 ≤ cfgH1Z1.Z ∧
    (∃ s2, runOps cfgH1Z1 [⟨false, 0, [3], 0⟩, ⟨false, 1, [4], 0⟩]
        (oramInit cfgH1Z1 (fun _ => 0)) = some s2 ∧
      ∀ b v, valAfter (fun _ => none) [⟨false, 0, [3], 0⟩, ⟨false, 1, [4], 0⟩] b = some v →
        stashGet s2.stash b = some v ∨
          ∃ a, onPath cfgH1Z1 (s2.posMap b) a ∧ s2.storage a = some (b, v)) :=
  ⟨by decide,
   oram_written_on_path_or_stash cfgH1Z1 (by decide) (fun _ => 0) _
     (ValidOps.write _ _ _ rfl trivial (ValidOps.write _ _ _ rfl trivial
       (ValidOps.nil _)))⟩
